import Mathlib

/-!
Shallow embedding of the `Timeline[T]` class from `timeline.py`.

A timeline is backed by an ordered list of segments; the pandas DataFrame with
columns `start`, `end`, `value` is modelled as a `List (Seg α)`.  Timestamps
(`pd.Timestamp`, a 64-bit tick count) are modelled as `Nat`; only ordering and
equality of timestamps matter to the code.  The Python `end` field is named
`fin` here because `end` is a Lean keyword.  Assertion failures raised by the
source are modelled as `Except String` results carrying the assertion message.
-/

/-- One row of the timeline DataFrame: `(start, end, value)`. -/
structure Seg (α : Type) where
  start : Nat
  fin : Nat
  value : α
deriving DecidableEq, Repr

namespace Timeline

variable {α β : Type}

/-- `df['start'].is_monotonic_increasing` (pandas: non-strict, adjacent
comparisons). -/
def monotonicStarts : List (Seg α) → Bool
  | a :: b :: rest => decide (a.start ≤ b.start) && monotonicStarts (b :: rest)
  | _ => true

/-- `(df['end'].iloc[:-1].values == df['start'].iloc[1:].values).all()`. -/
def contiguous : List (Seg α) → Bool
  | a :: b :: rest => decide (a.fin = b.start) && contiguous (b :: rest)
  | _ => true

/-- `(df['start'] < df['end']).all()`. -/
def startBeforeEnd (segs : List (Seg α)) : Bool :=
  segs.all (fun s => decide (s.start < s.fin))

/-- `Timeline._validate`: the four data assertions in source order (the column
name and dtype assertions hold by typing in this embedding). -/
def validate (segs : List (Seg α)) : Except String Unit :=
  if segs.length = 0 then .error "Timeline must have at least one segment"
  else if monotonicStarts segs = false then .error "Segments must be sorted by start time"
  else if contiguous segs = false then .error "Segments must be contiguous"
  else if startBeforeEnd segs = false then .error "Start must be before end"
  else .ok ()

/-- A list of segments accepted by `Timeline._validate`; every constructed
`Timeline` object satisfies this. -/
def Valid (segs : List (Seg α)) : Prop := validate segs = .ok ()

/-- `Timeline.from_segments`: validate, then wrap the rows as given. -/
def from_segments (segs : List (Seg α)) : Except String (List (Seg α)) :=
  match validate segs with
  | .error m => .error m
  | .ok _ => .ok segs

/-- `Timeline.from_dataframe`: validate an existing row list. -/
def from_dataframe (segs : List (Seg α)) : Except String (List (Seg α)) :=
  match validate segs with
  | .error m => .error m
  | .ok _ => .ok segs

/-- `timeline.start`: `self._df['start'].iloc[0]` (timelines are non-empty). -/
def tlStart : List (Seg α) → Nat
  | [] => 0
  | s :: _ => s.start

/-- `timeline.end`: `self._df['end'].iloc[-1]` (timelines are non-empty). -/
def tlEnd (segs : List (Seg α)) : Nat :=
  match segs.getLast? with
  | some s => s.fin
  | none => 0

/-- The boolean mask of `slice`: `(end > start) & (start < end)`. -/
def overlapFilter (segs : List (Seg α)) (lo hi : Nat) : List (Seg α) :=
  segs.filter (fun s => decide (lo < s.fin) && decide (s.start < hi))

/-- `slice`: adjust the first selected row's `start` when it precedes `lo`. -/
def clipFirst (lo : Nat) : List (Seg α) → List (Seg α)
  | [] => []
  | s :: rest => (if s.start < lo then ⟨lo, s.fin, s.value⟩ else s) :: rest

/-- `slice`: adjust the last selected row's `end` when it exceeds `hi`. -/
def clipLast (hi : Nat) : List (Seg α) → List (Seg α)
  | [] => []
  | [s] => [if hi < s.fin then ⟨s.start, hi, s.value⟩ else s]
  | s :: t :: rest => s :: clipLast hi (t :: rest)

/-- `Timeline.slice`: filter to overlapping rows, clip the first row's start
and then the last row's end, and wrap the rows without re-validating. -/
def slice (segs : List (Seg α)) (lo hi : Nat) : List (Seg α) :=
  clipLast hi (clipFirst lo (overlapFilter segs lo hi))

/-- One iteration of the `merge_adjacent` accumulator loop. -/
def mergeStep [DecidableEq α] (merged : List (Seg α)) (row : Seg α) : List (Seg α) :=
  match merged.getLast? with
  | some lastSeg =>
    if lastSeg.value = row.value then merged.dropLast ++ [⟨lastSeg.start, row.fin, row.value⟩]
    else merged ++ [row]
  | none => [row]

/-- The list built by the `merge_adjacent` loop before re-validation. -/
def mergeAdjacentList [DecidableEq α] (segs : List (Seg α)) : List (Seg α) :=
  segs.foldl mergeStep []

/-- `Timeline.merge_adjacent`: run the accumulator loop, then rebuild through
`from_segments`. -/
def merge_adjacent [DecidableEq α] (segs : List (Seg α)) : Except String (List (Seg α)) :=
  from_segments (mergeAdjacentList segs)

/-- The row list built by `Timeline.map`: boundaries kept, values transformed. -/
def mapSegs (f : α → β) (segs : List (Seg α)) : List (Seg β) :=
  segs.map (fun s => ⟨s.start, s.fin, f s.value⟩)

/-- `Timeline.map`: transform values, then rebuild through the validating
`from_dataframe`. -/
def map (f : α → β) (segs : List (Seg α)) : Except String (List (Seg β)) :=
  from_dataframe (mapSegs f segs)

/-- Stable insertion by `start`, placing a row after existing rows with an
equal or smaller start: models the stable `sorted(segments, key=x[0])`. -/
def insertByStart (x : Seg α) : List (Seg α) → List (Seg α)
  | [] => [x]
  | y :: ys => if y.start ≤ x.start then y :: insertByStart x ys else x :: y :: ys

/-- `sorted(segments, key=lambda x: x[0])` (stable sort by start). -/
def sortByStart (l : List (Seg α)) : List (Seg α) :=
  l.foldr insertByStart []

/-- The gap-filling loop of `from_segments_with_gaps`, after the head has been
emitted: compares each row with the previously emitted input row. -/
def fillAux (g : α) (prev : Seg α) : List (Seg α) → List (Seg α)
  | [] => []
  | n :: rest =>
    (if prev.fin < n.start then [⟨prev.fin, n.start, g⟩] else []) ++ n :: fillAux g n rest

/-- The `filled_segments` list of `from_segments_with_gaps`. -/
def fillGaps (g : α) : List (Seg α) → List (Seg α)
  | [] => []
  | s :: rest => s :: fillAux g s rest

/-- `Timeline.from_segments_with_gaps`: reject empty input, sort by start,
fill gaps with `gap_value`, delegate to `from_segments`. -/
def from_segments_with_gaps (segs : List (Seg α)) (gap_value : α) :
    Except String (List (Seg α)) :=
  if segs.isEmpty then .error "Timeline must have at least one segment"
  else from_segments (fillGaps gap_value (sortByStart segs))

/-- Insertion into an ascending duplicate-free list of timestamps. -/
def insertSorted (x : Nat) : List Nat → List Nat
  | [] => [x]
  | y :: ys =>
    if x < y then x :: y :: ys
    else if x = y then y :: ys
    else y :: insertSorted x ys

/-- `sorted(boundaries)` where `boundaries` is the set union of all `start`
and `end` columns: an ascending, deduplicated list. -/
def sortedDedup (l : List Nat) : List Nat :=
  l.foldr insertSorted []

/-- The boundary timestamps collected by `cross_product` across all input
timelines. -/
def allBoundaries (tls : List (List (Seg α))) : List Nat :=
  sortedDedup (tls.flatMap (fun tl => tl.map Seg.start ++ tl.map Seg.fin))

/-- `idxs[j] + 1 < len(df) and df.at[idxs[j] + 1, 'start'] <= seg_start`:
the guard of the cursor-advancing `while` loop. -/
def nextStartLE (tl : List (Seg α)) (idx b : Nat) : Bool :=
  match tl[idx + 1]? with
  | some s => decide (s.start ≤ b)
  | none => false

/-- The cursor-advancing `while` loop of `cross_product` for one timeline. -/
def advance (tl : List (Seg α)) (idx b : Nat) : Nat :=
  if h : nextStartLE tl idx b = true then advance tl (idx + 1) b else idx
termination_by tl.length - idx
decreasing_by
  have hlt : idx + 1 < tl.length := by
    unfold nextStartLE at h
    cases hg : tl[idx + 1]? with
    | none => rw [hg] at h; simp at h
    | some s => exact (List.getElem?_eq_some.mp hg).1
  omega

/-- `df.at[idxs[j], 'value']`; the cursor is always in range when the source
reads it. -/
def valueAtIdx [Inhabited α] (tl : List (Seg α)) (idx : Nat) : α :=
  match tl[idx]? with
  | some s => s.value
  | none => default

/-- The main sweep loop of `cross_product` over consecutive boundary pairs,
carrying the per-timeline cursor list. -/
def sweepAux [Inhabited α] (tls : List (List (Seg α))) :
    List Nat → List (Nat × Nat) → List (Seg (List α))
  | _, [] => []
  | idxs, p :: bps =>
    let newIdxs := (tls.zip idxs).map (fun q => advance q.1 q.2 p.1)
    let values := (tls.zip newIdxs).map (fun q => valueAtIdx q.1 q.2)
    ⟨p.1, p.2, values⟩ :: sweepAux tls newIdxs bps

/-- `for i in range(len(boundaries) - 1)`: the consecutive boundary pairs. -/
def boundaryPairs (bs : List Nat) : List (Nat × Nat) :=
  bs.zip bs.tail

/-- `Timeline.cross_product`.  The heterogeneous Python value tuple is
modelled as a `List α` in input-collection order. -/
def cross_product [Inhabited α] (tls : List (List (Seg α))) :
    Except String (List (Seg (List α))) :=
  if (tls.all (fun tl => tlStart tl = tlStart (tls.headD []))) = false then
    .error "All timelines must start at the same time"
  else if (tls.all (fun tl => tlEnd tl = tlEnd (tls.headD []))) = false then
    .error "All timelines must end at the same time"
  else
    from_segments
      (sweepAux tls (List.replicate tls.length 0) (boundaryPairs (allBoundaries tls)))

/-- The value a valid timeline holds at instant `t`: the value of the unique
segment with `start ≤ t < end`. -/
def valueAt [Inhabited α] (tl : List (Seg α)) (t : Nat) : α :=
  match tl.find? (fun s => decide (s.start ≤ t) && decide (t < s.fin)) with
  | some s => s.value
  | none => default

/-- The cross product described by the specification: one output segment per
consecutive pair of deduplicated sorted boundaries, valued by the tuple of the
values each input timeline holds at the pair's left endpoint. -/
def crossSpec [Inhabited α] (tls : List (List (Seg α))) : List (Seg (List α)) :=
  (boundaryPairs (allBoundaries tls)).map
    (fun p => ⟨p.1, p.2, tls.map (fun tl => valueAt tl p.1)⟩)

/-- Modelled from the spec (§4.3 Slice): keep exactly the segments overlapping
`[lo, hi)`; on a non-empty selection replace the first selected segment's
start by `lo` only when it is less than `lo`, and the last selected segment's
end by `hi` only when it is greater than `hi`. -/
def sliceSpec (segs : List (Seg α)) (lo hi : Nat) : List (Seg α) :=
  let sel := segs.filter (fun s => decide (lo < s.fin) && decide (s.start < hi))
  match sel with
  | [] => []
  | f :: _ =>
    let sel1 := if f.start < lo then sel.set 0 ⟨lo, f.fin, f.value⟩ else sel
    match sel1.getLast? with
    | some l =>
      if hi < l.fin then sel1.set (sel1.length - 1) ⟨l.start, hi, l.value⟩ else sel1
    | none => sel1

/-- Whether some adjacent pair of rows has equal `start` timestamps. -/
def hasEqualAdjacentStarts : List (Seg α) → Bool
  | a :: b :: rest => decide (a.start = b.start) || hasEqualAdjacentStarts (b :: rest)
  | _ => false

/-- Maximal-run coalescing as described by the specification of
`merge_adjacent`: each maximal run of consecutive equal-valued segments
becomes one segment from the run's first start to the run's last end. -/
def runsSpec [DecidableEq α] : List (Seg α) → List (Seg α)
  | [] => []
  | s :: rest =>
    ⟨s.start,
      ((s :: rest.takeWhile (fun x => decide (x.value = s.value))).getLast (by simp)).fin,
      s.value⟩ :: runsSpec (rest.dropWhile (fun x => decide (x.value = s.value)))
termination_by l => l.length
decreasing_by
  rename_i rest
  have := List.Sublist.length_le
    (List.dropWhile_sublist (l := rest) (fun x => decide (x.value = s.value)))
  simp only [List.length_cons]
  omega

/-- Head-recursive form of the `merge_adjacent` accumulator loop, used as a
stepping stone between the `foldl` implementation and `runsSpec`. -/
def mergeC [DecidableEq α] : List (Seg α) → List (Seg α)
  | [] => []
  | [s] => [s]
  | a :: b :: rest =>
    if a.value = b.value then mergeC (⟨a.start, b.fin, b.value⟩ :: rest)
    else a :: mergeC (b :: rest)
termination_by l => l.length
decreasing_by
  all_goals simp only [List.length_cons]
  all_goals omega

/-- The three structural invariants of a non-empty check aside: non-strictly
sorted starts (as pandas checks them), contiguity, and well-formed
intervals. -/
def WF (segs : List (Seg α)) : Prop :=
  (segs.map Seg.start).Chain' (· ≤ ·) ∧ segs.Chain' (fun a b => a.fin = b.start) ∧
    ∀ s ∈ segs, s.start < s.fin

end Timeline

namespace Timeline

variable {α β : Type}

theorem validate_eq_ok_iff {segs : List (Seg α)} :
    validate segs = .ok () ↔
      segs.length ≠ 0 ∧ monotonicStarts segs = true ∧ contiguous segs = true ∧
        startBeforeEnd segs = true := by
  unfold validate
  split_ifs with h1 h2 h3 h4 <;> simp_all

theorem monotonicStarts_iff {segs : List (Seg α)} :
    monotonicStarts segs = true ↔ (segs.map Seg.start).Chain' (· ≤ ·) := by
  induction segs with
  | nil => simp [monotonicStarts]
  | cons a l ih =>
    cases l with
    | nil => simp [monotonicStarts]
    | cons b rest =>
      unfold monotonicStarts
      rw [Bool.and_eq_true, decide_eq_true_eq]
      simp only [List.map_cons, List.chain'_cons]
      exact and_congr Iff.rfl (by simpa [List.map_cons] using ih)

theorem contiguous_iff {segs : List (Seg α)} :
    contiguous segs = true ↔ segs.Chain' (fun a b => a.fin = b.start) := by
  induction segs with
  | nil => simp [contiguous]
  | cons a l ih =>
    cases l with
    | nil => simp [contiguous]
    | cons b rest =>
      unfold contiguous
      rw [Bool.and_eq_true, decide_eq_true_eq, List.chain'_cons]
      exact and_congr Iff.rfl ih

theorem startBeforeEnd_iff {segs : List (Seg α)} :
    startBeforeEnd segs = true ↔ ∀ s ∈ segs, s.start < s.fin := by
  simp [startBeforeEnd, List.all_eq_true]

theorem valid_iff {segs : List (Seg α)} : Valid segs ↔ segs ≠ [] ∧ WF segs := by
  rw [Valid, validate_eq_ok_iff, WF]
  rw [monotonicStarts_iff, contiguous_iff, startBeforeEnd_iff]
  simp [List.length_eq_zero, and_assoc]

theorem WF.tail {s : Seg α} {rest : List (Seg α)} (h : WF (s :: rest)) : WF rest := by
  obtain ⟨h1, h2, h3⟩ := h
  exact ⟨(List.map_cons Seg.start s rest ▸ h1).tail, h2.tail,
    fun x hx => h3 x (List.mem_cons_of_mem s hx)⟩

theorem WF.pairwise_start_le {segs : List (Seg α)} (h : WF segs) :
    segs.Pairwise (fun a b => a.start ≤ b.start) :=
  List.pairwise_map.mp (List.chain'_iff_pairwise.mp h.1)

theorem WF.pairwise_fin_le_start {segs : List (Seg α)} (h : WF segs) :
    segs.Pairwise (fun a b => a.fin ≤ b.start) := by
  induction segs with
  | nil => exact List.Pairwise.nil
  | cons a l ih =>
    refine List.pairwise_cons.mpr ⟨?_, ih h.tail⟩
    intro b hb
    cases l with
    | nil => cases hb
    | cons c l' =>
      have hac : a.fin = c.start := (List.chain'_cons.mp h.2.1).1
      have hcb : c.start ≤ b.start := by
        rcases List.mem_cons.mp hb with rfl | hb'
        · exact le_refl _
        · exact List.rel_of_pairwise_cons h.tail.pairwise_start_le hb'
      omega

theorem WF.start_le {segs : List (Seg α)} (h : WF segs) :
    ∀ s ∈ segs, tlStart segs ≤ s.start := by
  intro s hs
  cases segs with
  | nil => cases hs
  | cons a l =>
    rcases List.mem_cons.mp hs with rfl | hs'
    · exact le_refl _
    · exact le_of_lt (lt_of_lt_of_le (h.2.2 a (List.mem_cons_self a l))
        (List.rel_of_pairwise_cons h.pairwise_fin_le_start hs'))

theorem WF.fin_le {segs : List (Seg α)} (h : WF segs) :
    ∀ s ∈ segs, s.fin ≤ tlEnd segs := by
  induction segs with
  | nil => intro s hs; cases hs
  | cons a l ih =>
    intro s hs
    cases l with
    | nil =>
      rcases List.mem_cons.mp hs with rfl | hs'
      · simp [tlEnd, List.getLast?]
      · cases hs'
    | cons c l' =>
      have htl : tlEnd (a :: c :: l') = tlEnd (c :: l') := by
        simp [tlEnd, List.getLast?_cons_cons]
      rw [htl]
      rcases List.mem_cons.mp hs with rfl | hs'
      · have hac : s.fin = c.start := (List.chain'_cons.mp h.2.1).1
        have : c.start < c.fin := h.2.2 c (List.mem_cons_of_mem _ (List.mem_cons_self c l'))
        have := ih h.tail c (List.mem_cons_self c l')
        omega
      · exact ih h.tail s hs'

theorem WF.tlStart_lt_tlEnd {segs : List (Seg α)} (h : WF segs) (hne : segs ≠ []) :
    tlStart segs < tlEnd segs := by
  cases segs with
  | nil => exact absurd rfl hne
  | cons a l =>
    have h1 : a.start < a.fin := h.2.2 a (List.mem_cons_self a l)
    have h2 : a.fin ≤ tlEnd (a :: l) := h.fin_le a (List.mem_cons_self a l)
    exact lt_of_lt_of_le h1 h2

theorem mapSegs_monotonicStarts (f : α → β) (segs : List (Seg α)) :
    monotonicStarts (mapSegs f segs) = monotonicStarts segs := by
  induction segs with
  | nil => rfl
  | cons a l ih =>
    cases l with
    | nil => rfl
    | cons b rest =>
      simp only [mapSegs, List.map_cons] at *
      unfold monotonicStarts
      rw [← ih]

theorem mapSegs_contiguous (f : α → β) (segs : List (Seg α)) :
    contiguous (mapSegs f segs) = contiguous segs := by
  induction segs with
  | nil => rfl
  | cons a l ih =>
    cases l with
    | nil => rfl
    | cons b rest =>
      simp only [mapSegs, List.map_cons] at *
      unfold contiguous
      rw [← ih]

theorem mapSegs_startBeforeEnd (f : α → β) (segs : List (Seg α)) :
    startBeforeEnd (mapSegs f segs) = startBeforeEnd segs := by
  induction segs with
  | nil => rfl
  | cons a l ih =>
    simp only [mapSegs, List.map_cons] at *
    unfold startBeforeEnd at *
    simp only [List.all_cons, ih]

theorem from_segments_ok_eq {segs out : List (Seg α)}
    (h : from_segments segs = .ok out) : out = segs := by
  unfold from_segments at h
  cases hv : validate segs with
  | error m => rw [hv] at h; cases h
  | ok u => rw [hv] at h; cases h; rfl

theorem from_segments_error_empty_iff {segs : List (Seg α)} :
    from_segments segs = .error "Timeline must have at least one segment" ↔ segs = [] := by
  unfold from_segments validate
  split_ifs with h1 h2 h3 h4 <;>
    simp_all [List.length_eq_zero, String.ext_iff]

theorem from_segments_error_sorted_iff {segs : List (Seg α)} :
    from_segments segs = .error "Segments must be sorted by start time" ↔
      segs ≠ [] ∧ monotonicStarts segs = false := by
  unfold from_segments validate
  split_ifs with h1 h2 h3 h4 <;>
    simp_all [List.length_eq_zero, String.ext_iff]

theorem from_segments_error_contiguous_iff {segs : List (Seg α)} :
    from_segments segs = .error "Segments must be contiguous" ↔
      segs ≠ [] ∧ monotonicStarts segs = true ∧ contiguous segs = false := by
  unfold from_segments validate
  split_ifs with h1 h2 h3 h4 <;>
    simp_all [List.length_eq_zero, String.ext_iff]

theorem from_segments_error_interval_iff {segs : List (Seg α)} :
    from_segments segs = .error "Start must be before end" ↔
      segs ≠ [] ∧ monotonicStarts segs = true ∧ contiguous segs = true ∧
        startBeforeEnd segs = false := by
  unfold from_segments validate
  split_ifs with h1 h2 h3 h4 <;>
    simp_all [List.length_eq_zero, String.ext_iff]

theorem exists_degenerate_of_equal_adjacent {segs : List (Seg α)}
    (hcon : segs.Chain' (fun a b => a.fin = b.start))
    (heq : hasEqualAdjacentStarts segs = true) :
    ∃ s ∈ segs, ¬ s.start < s.fin := by
  induction segs with
  | nil => simp [hasEqualAdjacentStarts] at heq
  | cons a l ih =>
    cases l with
    | nil => simp [hasEqualAdjacentStarts] at heq
    | cons b rest =>
      unfold hasEqualAdjacentStarts at heq
      rcases Bool.or_eq_true_iff.mp heq with hab | htail
      · have hab' : a.start = b.start := of_decide_eq_true hab
        have hfin : a.fin = b.start := (List.chain'_cons.mp hcon).1
        exact ⟨a, List.mem_cons_self _ _, by omega⟩
      · obtain ⟨s, hs, hlt⟩ := ih (List.chain'_cons.mp hcon).2 htail
        exact ⟨s, List.mem_cons_of_mem _ hs, hlt⟩

end Timeline

namespace Timeline

variable {α β : Type}

/-- C8: for a valid timeline, `map` keeps every segment's `start`/`end`
boundaries, replaces every value by `func` of the original value, goes through
the validating construction path, and that validation succeeds. -/
theorem map_preserves_boundaries (f : α → β) (segs : List (Seg α)) (hv : Valid segs) :
    Timeline.map f segs = .ok (segs.map (fun s => ⟨s.start, s.fin, f s.value⟩)) := by
  have h := validate_eq_ok_iff.mp hv
  have hok : validate (mapSegs f segs) = .ok () := by
    apply validate_eq_ok_iff.mpr
    refine ⟨?_, ?_, ?_, ?_⟩
    · simpa [mapSegs] using h.1
    · rw [mapSegs_monotonicStarts]; exact h.2.1
    · rw [mapSegs_contiguous]; exact h.2.2.1
    · rw [mapSegs_startBeforeEnd]; exact h.2.2.2
  unfold map from_dataframe
  rw [hok]
  rfl

/-- Witness for C8 at a concrete valid timeline and function. -/
theorem map_preserves_boundaries_witness :
    Valid [(⟨0, 1, 5⟩ : Seg Nat)] ∧
      Timeline.map (fun n => n + 1) [(⟨0, 1, 5⟩ : Seg Nat)] = .ok [⟨0, 1, 6⟩] :=
  ⟨rfl, map_preserves_boundaries (fun n => n + 1) [⟨0, 1, 5⟩] rfl⟩

/-- C2 (amended): `from_segments` checks the four invariants in source order
with their four distinct messages and never re-sorts its input; the sortedness
check is pandas' non-strict `is_monotonic_increasing`, so an input whose
starts are non-decreasing but contain an equal adjacent pair passes the sort
check and instead fails with the contiguity or start-before-end message. -/
theorem from_segments_validation_order (segs : List (Seg α)) :
    (∀ out, from_segments segs = .ok out → out = segs) ∧
    (from_segments segs = .error "Timeline must have at least one segment" ↔ segs = []) ∧
    (from_segments segs = .error "Segments must be sorted by start time" ↔
      segs ≠ [] ∧ monotonicStarts segs = false) ∧
    (from_segments segs = .error "Segments must be contiguous" ↔
      segs ≠ [] ∧ monotonicStarts segs = true ∧ contiguous segs = false) ∧
    (from_segments segs = .error "Start must be before end" ↔
      segs ≠ [] ∧ monotonicStarts segs = true ∧ contiguous segs = true ∧
        startBeforeEnd segs = false) ∧
    (hasEqualAdjacentStarts segs = true → monotonicStarts segs = true →
      from_segments segs = .error "Segments must be contiguous" ∨
        from_segments segs = .error "Start must be before end") := by
  refine ⟨fun out h => from_segments_ok_eq h, from_segments_error_empty_iff,
    from_segments_error_sorted_iff, from_segments_error_contiguous_iff,
    from_segments_error_interval_iff, ?_⟩
  intro heq hmono
  have hne : segs ≠ [] := by
    cases segs with
    | nil => simp [hasEqualAdjacentStarts] at heq
    | cons a l => simp
  by_cases hcon : contiguous segs = true
  · right
    apply from_segments_error_interval_iff.mpr
    refine ⟨hne, hmono, hcon, ?_⟩
    obtain ⟨s, hs, hlt⟩ := exists_degenerate_of_equal_adjacent (contiguous_iff.mp hcon) heq
    rw [Bool.eq_false_iff]
    intro htrue
    exact hlt (startBeforeEnd_iff.mp htrue s hs)
  · left
    exact from_segments_error_contiguous_iff.mpr ⟨hne, hmono, by simpa using hcon⟩

/-- Witness for C2 (amended) at a concrete out-of-order input, which fails
with the sorted-by-start-time message. -/
theorem from_segments_validation_order_witness :
    from_segments [(⟨120, 240, 2⟩ : Seg Nat), ⟨0, 120, 1⟩] =
      .error "Segments must be sorted by start time" :=
  (from_segments_validation_order [(⟨120, 240, 2⟩ : Seg Nat), ⟨0, 120, 1⟩]).2.2.1.mpr
    ⟨by simp, rfl⟩

/-- C2 counterexample: a list with two equal adjacent starts passes the
non-strict sort check and fails with the contiguity message, not the
sorted-by-start-time failure the claim states. -/
theorem from_segments_equal_starts_counterexample :
    hasEqualAdjacentStarts [(⟨0, 60, 1⟩ : Seg Nat), ⟨0, 120, 2⟩] = true ∧
      from_segments [(⟨0, 60, 1⟩ : Seg Nat), ⟨0, 120, 2⟩] =
        .error "Segments must be contiguous" ∧
      "Segments must be contiguous" ≠ "Segments must be sorted by start time" :=
  ⟨rfl, rfl, by decide⟩

end Timeline

namespace Timeline

variable {α β : Type}

theorem clipFirst_length (lo : Nat) (l : List (Seg α)) :
    (clipFirst lo l).length = l.length := by
  cases l <;> simp [clipFirst]

theorem clipLast_length (hi : Nat) (l : List (Seg α)) :
    (clipLast hi l).length = l.length := by
  induction l with
  | nil => rfl
  | cons a t ih =>
    cases t with
    | nil => simp [clipLast]
    | cons b t' => simpa [clipLast] using ih

theorem slice_eq_nil_iff {segs : List (Seg α)} {lo hi : Nat} :
    slice segs lo hi = [] ↔ overlapFilter segs lo hi = [] := by
  unfold slice
  rw [← List.length_eq_zero, ← List.length_eq_zero, clipLast_length, clipFirst_length]

theorem overlapFilter_subsingleton (segs : List (Seg α)) (lo hi : Nat)
    (hwf : WF segs) (hhl : hi ≤ lo) :
    overlapFilter segs lo hi = [] ∨ ∃ s ∈ segs, overlapFilter segs lo hi = [s] := by
  revert hwf
  induction segs with
  | nil => intro _; left; rfl
  | cons a l ih =>
    intro hwf
    unfold overlapFilter at *
    rw [List.filter_cons]
    by_cases ha : (decide (lo < a.fin) && decide (a.start < hi)) = true
    · rw [if_pos ha]
      right
      refine ⟨a, List.mem_cons_self _ _, ?_⟩
      rw [Bool.and_eq_true] at ha
      obtain ⟨ha1, ha2⟩ := ha
      have ha1' := of_decide_eq_true ha1
      have hnil : l.filter (fun s => decide (lo < s.fin) && decide (s.start < hi)) = [] := by
        apply List.filter_eq_nil_iff.mpr
        intro b hb
        have hab : a.fin ≤ b.start := List.rel_of_pairwise_cons hwf.pairwise_fin_le_start hb
        simp only [Bool.and_eq_true, decide_eq_true_eq, not_and]
        intro _
        omega
      rw [hnil]
    · rw [if_neg ha]
      rcases ih hwf.tail with hnil | ⟨s, hs, hone⟩
      · left; exact hnil
      · right; exact ⟨s, List.mem_cons_of_mem _ hs, hone⟩

theorem overlapFilter_mem {segs : List (Seg α)} {lo hi : Nat} {s : Seg α}
    (hs : s ∈ segs) (h1 : lo < s.fin) (h2 : s.start < hi) :
    s ∈ overlapFilter segs lo hi :=
  List.mem_filter.mpr ⟨hs, by simp [h1, h2]⟩

end Timeline

namespace Timeline

variable {α β : Type}

/-- C5: when the bounds `lo ≤ hi` lie entirely outside the timeline's total
span, the overlap filter selects nothing and `slice` returns a zero-segment
result without failing (it never re-runs the invariant validator). -/
theorem slice_outside_span (segs : List (Seg α)) (lo hi : Nat) (hv : Valid segs)
    (hle : lo ≤ hi) (hout : hi ≤ tlStart segs ∨ tlEnd segs ≤ lo) :
    slice segs lo hi = [] := by
  obtain ⟨hne, hwf⟩ := valid_iff.mp hv
  apply slice_eq_nil_iff.mpr
  apply List.filter_eq_nil_iff.mpr
  intro s hs
  simp only [Bool.and_eq_true, decide_eq_true_eq, not_and]
  rcases hout with hcase | hcase
  · have := hwf.start_le s hs
    intro _
    omega
  · have := hwf.fin_le s hs
    intro h1
    omega

/-- Witness for C5 at bounds entirely before a concrete timeline's span. -/
theorem slice_outside_span_witness :
    Valid [(⟨60, 120, 1⟩ : Seg Nat)] ∧ (0 : Nat) ≤ 30 ∧
      (30 ≤ tlStart [(⟨60, 120, 1⟩ : Seg Nat)] ∨ tlEnd [(⟨60, 120, 1⟩ : Seg Nat)] ≤ 0) ∧
      slice [(⟨60, 120, 1⟩ : Seg Nat)] 0 30 = [] :=
  ⟨rfl, by decide, Or.inl (by decide),
    slice_outside_span [⟨60, 120, 1⟩] 0 30 rfl (by decide) (Or.inl (by decide))⟩

/-- C3 (amended): with reversed bounds `lo > hi`, the overlap filter keeps the
at most one segment that strictly spans the reversed range, so `slice` returns
either zero segments or the single inverted segment `(lo, hi, value)`; it is
not always empty. -/
theorem slice_reversed_bounds (segs : List (Seg α)) (lo hi : Nat) (hv : Valid segs)
    (h : hi < lo) :
    slice segs lo hi = [] ∨ ∃ v, slice segs lo hi = [⟨lo, hi, v⟩] := by
  obtain ⟨hne, hwf⟩ := valid_iff.mp hv
  rcases overlapFilter_subsingleton segs lo hi hwf (le_of_lt h) with hnil | ⟨s, hs, hone⟩
  · left
    exact slice_eq_nil_iff.mpr hnil
  · right
    refine ⟨s.value, ?_⟩
    have hmem : s ∈ overlapFilter segs lo hi := by
      rw [hone]; exact List.mem_cons_self _ _
    have hpred := (List.mem_filter.mp hmem).2
    rw [Bool.and_eq_true] at hpred
    have h1 : lo < s.fin := of_decide_eq_true hpred.1
    have h2 : s.start < hi := of_decide_eq_true hpred.2
    have hc1 : s.start < lo := lt_trans h2 h
    have hc2 : hi < s.fin := lt_trans h h1
    unfold slice
    rw [hone]
    simp [clipFirst, clipLast, hc1, hc2]

/-- Witness for C3 (amended) at a concrete timeline with reversed bounds. -/
theorem slice_reversed_bounds_witness :
    Valid [(⟨0, 600, 0⟩ : Seg Nat)] ∧ (3 : Nat) < 7 ∧
      (slice [(⟨0, 600, 0⟩ : Seg Nat)] 7 3 = [] ∨
        ∃ v, slice [(⟨0, 600, 0⟩ : Seg Nat)] 7 3 = [⟨7, 3, v⟩]) :=
  ⟨rfl, by decide, slice_reversed_bounds [⟨0, 600, 0⟩] 7 3 rfl (by decide)⟩

/-- C3 counterexample: a valid timeline and bounds with `lo > hi` for which
`slice` returns a non-empty result, contradicting "the returned object
contains zero segments". -/
theorem slice_reversed_counterexample :
    Valid [(⟨0, 600, 0⟩ : Seg Nat)] ∧ (3 : Nat) < 7 ∧
      slice [(⟨0, 600, 0⟩ : Seg Nat)] 7 3 = [⟨7, 3, 0⟩] ∧
      slice [(⟨0, 600, 0⟩ : Seg Nat)] 7 3 ≠ [] :=
  ⟨rfl, by decide, rfl, by decide⟩

/-- C10: slicing at a single instant strictly inside a segment returns exactly
one zero-width segment `(t, t, value)`, which violates the start-before-end
invariant that the validating constructors enforce. -/
theorem slice_zero_width (segs : List (Seg α)) (s : Seg α) (t : Nat) (hv : Valid segs)
    (hs : s ∈ segs) (h1 : s.start < t) (h2 : t < s.fin) :
    slice segs t t = [⟨t, t, s.value⟩] ∧
      validate (slice segs t t) = .error "Start must be before end" := by
  obtain ⟨hne, hwf⟩ := valid_iff.mp hv
  have hmemf : s ∈ overlapFilter segs t t := overlapFilter_mem hs h2 h1
  rcases overlapFilter_subsingleton segs t t hwf (le_refl t) with hnil | ⟨u, hu, hone⟩
  · rw [hnil] at hmemf; cases hmemf
  · have hsu : s = u := by
      rw [hone] at hmemf
      simpa using hmemf
    subst hsu
    have hres : slice segs t t = [⟨t, t, s.value⟩] := by
      unfold slice
      rw [hone]
      simp [clipFirst, clipLast, h1, h2]
    refine ⟨hres, ?_⟩
    rw [hres]
    simp [validate, monotonicStarts, contiguous, startBeforeEnd]

/-- Witness for C10 at an instant strictly inside a concrete segment. -/
theorem slice_zero_width_witness :
    Valid [(⟨0, 600, 7⟩ : Seg Nat)] ∧
      (⟨0, 600, 7⟩ : Seg Nat) ∈ [(⟨0, 600, 7⟩ : Seg Nat)] ∧
      (0 : Nat) < 300 ∧ (300 : Nat) < 600 ∧
      (slice [(⟨0, 600, 7⟩ : Seg Nat)] 300 300 = [⟨300, 300, 7⟩] ∧
        validate (slice [(⟨0, 600, 7⟩ : Seg Nat)] 300 300) =
          .error "Start must be before end") :=
  ⟨rfl, by decide, by decide, by decide,
    slice_zero_width [⟨0, 600, 7⟩] ⟨0, 600, 7⟩ 300 rfl (by decide) (by decide) (by decide)⟩

end Timeline

namespace Timeline

variable {α β : Type}

theorem clipLast_eq (hi : Nat) (l : List (Seg α)) :
    clipLast hi l = match l.getLast? with
      | some s => if hi < s.fin then l.set (l.length - 1) ⟨s.start, hi, s.value⟩ else l
      | none => l := by
  induction l with
  | nil => rfl
  | cons a t ih =>
    cases t with
    | nil =>
      simp only [clipLast, List.getLast?_singleton, List.length_cons, List.length_nil]
      split <;> simp [List.set]
    | cons b t' =>
      rw [show clipLast hi (a :: b :: t') = a :: clipLast hi (b :: t') from rfl, ih]
      cases hgl : (b :: t').getLast? with
      | none => simp at hgl
      | some s =>
        simp only [List.getLast?_cons_cons, hgl]
        split
        · simp [List.set, List.length_cons]
        · rfl

theorem tlStart_clipLast (hi : Nat) (l : List (Seg α)) :
    tlStart (clipLast hi l) = tlStart l := by
  cases l with
  | nil => rfl
  | cons a t =>
    cases t with
    | nil => simp only [clipLast]; split <;> rfl
    | cons b t' => rfl

theorem tlEnd_cons_cons (a b : Seg α) (l : List (Seg α)) :
    tlEnd (a :: b :: l) = tlEnd (b :: l) := by
  simp [tlEnd, List.getLast?_cons_cons]

theorem tlEnd_clipFirst (lo : Nat) (l : List (Seg α)) :
    tlEnd (clipFirst lo l) = tlEnd l := by
  cases l with
  | nil => rfl
  | cons a t =>
    cases t with
    | nil => simp only [clipFirst]; split <;> simp [tlEnd, List.getLast?_singleton]
    | cons b t' =>
      simp only [clipFirst]
      rw [tlEnd_cons_cons, tlEnd_cons_cons]

theorem clipFirst_of_not_lt (lo : Nat) (l : List (Seg α)) (h : ¬ tlStart l < lo) :
    clipFirst lo l = l := by
  cases l with
  | nil => rfl
  | cons a t =>
    show (if a.start < lo then (⟨lo, a.fin, a.value⟩ : Seg α) else a) :: t = a :: t
    rw [if_neg (by exact h)]

theorem clipLast_of_not_lt (hi : Nat) (l : List (Seg α)) (h : ¬ hi < tlEnd l) :
    clipLast hi l = l := by
  rw [clipLast_eq]
  cases hgl : l.getLast? with
  | none => rfl
  | some s =>
    have hfin : tlEnd l = s.fin := by simp [tlEnd, hgl]
    show (if hi < s.fin then l.set (l.length - 1) ⟨s.start, hi, s.value⟩ else l) = l
    rw [if_neg (by omega)]

theorem getLast?_filter {p : Seg α → Bool} (l : List (Seg α)) (s : Seg α)
    (hgl : l.getLast? = some s) (hp : p s = true) :
    (l.filter p).getLast? = some s := by
  induction l with
  | nil => cases hgl
  | cons a t ih =>
    cases t with
    | nil =>
      simp only [List.getLast?_singleton, Option.some.injEq] at hgl
      subst hgl
      simp [List.filter_cons, hp]
    | cons b t' =>
      rw [List.getLast?_cons_cons] at hgl
      have ih' := ih hgl
      rw [List.filter_cons]
      split
      · have hne2 : (b :: t').filter p ≠ [] := by
          intro hnil
          rw [hnil] at ih'
          cases ih'
        obtain ⟨x, xs, hxx⟩ := List.exists_cons_of_ne_nil hne2
        rw [hxx, List.getLast?_cons_cons, ← hxx, ih']
      · exact ih'

end Timeline

namespace Timeline

variable {α β : Type}

theorem slice_eq_sliceSpec (segs : List (Seg α)) (lo hi : Nat) :
    slice segs lo hi = sliceSpec segs lo hi := by
  unfold slice sliceSpec overlapFilter
  cases hsel : segs.filter (fun s => decide (lo < s.fin) && decide (s.start < hi)) with
  | nil => rfl
  | cons f rest =>
    by_cases hf : f.start < lo
    · have hcf : clipFirst lo (f :: rest) = (⟨lo, f.fin, f.value⟩ :: rest) := by
        show (if f.start < lo then (⟨lo, f.fin, f.value⟩ : Seg α) else f) :: rest = _
        rw [if_pos hf]
      simp only [if_pos hf, List.set_cons_zero, hcf, clipLast_eq]
    · have hcf : clipFirst lo (f :: rest) = f :: rest := by
        show (if f.start < lo then (⟨lo, f.fin, f.value⟩ : Seg α) else f) :: rest = _
        rw [if_neg hf]
      simp only [if_neg hf, hcf, clipLast_eq]

end Timeline

namespace Timeline

variable {α β : Type}

/-- C4: for `lo ≤ hi`, `slice` keeps exactly the segments overlapping
`[lo, hi)` and clips only the first selected segment's start (when it is less
than `lo`) and the last selected segment's end (when it is greater than `hi`),
leaving all other rows unchanged — the `sliceSpec` refinement; consequently a
`lo` before the timeline's total start preserves the original start, and an
`hi` past the total end preserves the original end. -/
theorem slice_within_span_spec (segs : List (Seg α)) (lo hi : Nat) (hv : Valid segs)
    (hle : lo ≤ hi) :
    slice segs lo hi = sliceSpec segs lo hi ∧
      (lo < tlStart segs → slice segs lo hi ≠ [] →
        tlStart (slice segs lo hi) = tlStart segs) ∧
      (tlEnd segs < hi → slice segs lo hi ≠ [] →
        tlEnd (slice segs lo hi) = tlEnd segs) := by
  obtain ⟨hne, hwf⟩ := valid_iff.mp hv
  refine ⟨slice_eq_sliceSpec segs lo hi, ?_, ?_⟩
  · intro hlo hslne
    have hselne : overlapFilter segs lo hi ≠ [] := fun hnil =>
      hslne (slice_eq_nil_iff.mpr hnil)
    cases segs with
    | nil => exact absurd rfl hne
    | cons a l =>
      have hastart : tlStart (a :: l) = a.start := rfl
      rw [hastart] at hlo
      have hafin : a.start < a.fin := hwf.2.2 a (List.mem_cons_self _ _)
      have hahi : a.start < hi := by
        by_contra hnot
        apply hselne
        apply List.filter_eq_nil_iff.mpr
        intro s hs
        have hsle := hwf.start_le s hs
        rw [hastart] at hsle
        simp only [Bool.and_eq_true, decide_eq_true_eq, not_and]
        intro _
        omega
      have hpred : (decide (lo < a.fin) && decide (a.start < hi)) = true := by
        simp only [Bool.and_eq_true, decide_eq_true_eq]
        exact ⟨by omega, hahi⟩
      have hsel : overlapFilter (a :: l) lo hi = a :: overlapFilter l lo hi := by
        unfold overlapFilter
        rw [List.filter_cons, if_pos hpred]
      unfold slice
      rw [hsel, clipFirst_of_not_lt lo _ (by show ¬ a.start < lo; omega),
        tlStart_clipLast]
      rfl
  · intro hhi hslne
    have hselne : overlapFilter segs lo hi ≠ [] := fun hnil =>
      hslne (slice_eq_nil_iff.mpr hnil)
    obtain ⟨g, hg⟩ : ∃ g, segs.getLast? = some g := by
      cases segs with
      | nil => exact absurd rfl hne
      | cons a l => exact ⟨(a :: l).getLast (by simp), List.getLast?_eq_getLast _ _⟩
    have hgfin : tlEnd segs = g.fin := by simp [tlEnd, hg]
    have hgmem : g ∈ segs := List.mem_of_mem_getLast? hg
    have hlo_lt : lo < g.fin := by
      by_contra hnot
      apply hselne
      apply List.filter_eq_nil_iff.mpr
      intro s hs
      have := hwf.fin_le s hs
      simp only [Bool.and_eq_true, decide_eq_true_eq, not_and]
      intro hcon
      omega
    have hgwf : g.start < g.fin := hwf.2.2 g hgmem
    have hgstart : g.start < hi := by omega
    have hpred : (decide (lo < g.fin) && decide (g.start < hi)) = true := by
      simp [hlo_lt, hgstart]
    have hself : (overlapFilter segs lo hi).getLast? = some g :=
      getLast?_filter segs g hg hpred
    unfold slice
    have h1 : tlEnd (clipFirst lo (overlapFilter segs lo hi)) = g.fin := by
      rw [tlEnd_clipFirst]
      simp [tlEnd, hself]
    rw [clipLast_of_not_lt hi _ (by rw [h1]; omega), h1, hgfin]

/-- Witness for C4 at a concrete timeline whose span lies strictly inside the
slice bounds, so both preservation clauses fire. -/
theorem slice_within_span_spec_witness :
    Valid [(⟨30, 60, 1⟩ : Seg Nat), ⟨60, 120, 2⟩] ∧ (15 : Nat) ≤ 150 ∧
      (slice [(⟨30, 60, 1⟩ : Seg Nat), ⟨60, 120, 2⟩] 15 150 =
          sliceSpec [(⟨30, 60, 1⟩ : Seg Nat), ⟨60, 120, 2⟩] 15 150 ∧
        (15 < tlStart [(⟨30, 60, 1⟩ : Seg Nat), ⟨60, 120, 2⟩] →
          slice [(⟨30, 60, 1⟩ : Seg Nat), ⟨60, 120, 2⟩] 15 150 ≠ [] →
          tlStart (slice [(⟨30, 60, 1⟩ : Seg Nat), ⟨60, 120, 2⟩] 15 150) =
            tlStart [(⟨30, 60, 1⟩ : Seg Nat), ⟨60, 120, 2⟩]) ∧
        (tlEnd [(⟨30, 60, 1⟩ : Seg Nat), ⟨60, 120, 2⟩] < 150 →
          slice [(⟨30, 60, 1⟩ : Seg Nat), ⟨60, 120, 2⟩] 15 150 ≠ [] →
          tlEnd (slice [(⟨30, 60, 1⟩ : Seg Nat), ⟨60, 120, 2⟩] 15 150) =
            tlEnd [(⟨30, 60, 1⟩ : Seg Nat), ⟨60, 120, 2⟩])) :=
  ⟨rfl, by decide,
    slice_within_span_spec [⟨30, 60, 1⟩, ⟨60, 120, 2⟩] 15 150 rfl (by decide)⟩

end Timeline

namespace Timeline

variable {α β : Type}

theorem mergeStep_concat [DecidableEq α] (front : List (Seg α)) (a x : Seg α) :
    mergeStep (front ++ [a]) x =
      if a.value = x.value then front ++ [⟨a.start, x.fin, x.value⟩]
      else (front ++ [a]) ++ [x] := by
  unfold mergeStep
  rw [List.getLast?_concat, List.dropLast_concat]

theorem mergeStep_singleton [DecidableEq α] (a x : Seg α) :
    mergeStep [a] x =
      if a.value = x.value then [⟨a.start, x.fin, x.value⟩] else [a, x] := by
  have := mergeStep_concat ([] : List (Seg α)) a x
  simpa using this

theorem foldl_mergeStep_append [DecidableEq α] (xs : List (Seg α)) :
    ∀ (front : List (Seg α)) (a : Seg α),
      xs.foldl mergeStep (front ++ [a]) = front ++ xs.foldl mergeStep [a] := by
  induction xs with
  | nil => intro front a; rfl
  | cons x xs ih =>
    intro front a
    rw [List.foldl_cons, List.foldl_cons, mergeStep_concat, mergeStep_singleton]
    by_cases hax : a.value = x.value
    · rw [if_pos hax, if_pos hax, ih front ⟨a.start, x.fin, x.value⟩]
    · rw [if_neg hax, if_neg hax, ih (front ++ [a]) x,
        show ([a, x] : List (Seg α)) = [a] ++ [x] from rfl, ih [a] x,
        List.append_assoc]

theorem mergeAdjacentList_eq_mergeC [DecidableEq α] (segs : List (Seg α)) :
    mergeAdjacentList segs = mergeC segs := by
  cases segs with
  | nil => simp [mergeAdjacentList, mergeC]
  | cons a xs =>
    unfold mergeAdjacentList
    rw [List.foldl_cons, show mergeStep [] a = [a] from rfl]
    induction xs generalizing a with
    | nil => simp [mergeC]
    | cons x xs ih =>
      rw [List.foldl_cons, mergeStep_singleton]
      by_cases hax : a.value = x.value
      · rw [if_pos hax, ih ⟨a.start, x.fin, x.value⟩]
        conv_rhs => rw [mergeC]
        rw [if_pos hax]
      · rw [if_neg hax,
          show ([a, x] : List (Seg α)) = [a] ++ [x] from rfl,
          foldl_mergeStep_append xs [a] x, ih x]
        conv_rhs => rw [mergeC]
        rw [if_neg hax]
        rfl

end Timeline

namespace Timeline

variable {α β : Type}

theorem mergeC_nil [DecidableEq α] : mergeC ([] : List (Seg α)) = [] := by
  simp [mergeC]

theorem mergeC_singleton [DecidableEq α] (s : Seg α) : mergeC [s] = [s] := by
  simp [mergeC]

theorem mergeC_cons_cons_pos [DecidableEq α] (x y : Seg α) (rest : List (Seg α))
    (hxy : x.value = y.value) :
    mergeC (x :: y :: rest) = mergeC (⟨x.start, y.fin, y.value⟩ :: rest) := by
  conv_lhs => rw [mergeC]
  rw [if_pos hxy]

theorem mergeC_cons_cons_neg [DecidableEq α] (x y : Seg α) (rest : List (Seg α))
    (hxy : ¬ x.value = y.value) :
    mergeC (x :: y :: rest) = x :: mergeC (y :: rest) := by
  conv_lhs => rw [mergeC]
  rw [if_neg hxy]

theorem mergeC_cons_exists [DecidableEq α] : ∀ (x : Seg α) (l : List (Seg α)),
    ∃ h t, mergeC (x :: l) = h :: t ∧ h.start = x.start ∧ h.value = x.value
  | x, [] => ⟨x, [], mergeC_singleton x, rfl, rfl⟩
  | x, y :: rest => by
    by_cases hxy : x.value = y.value
    · obtain ⟨h, t, heq, hs, hv⟩ := mergeC_cons_exists ⟨x.start, y.fin, y.value⟩ rest
      exact ⟨h, t, by rw [mergeC_cons_cons_pos x y rest hxy]; exact heq, hs,
        by rw [hv, ← hxy]⟩
    · exact ⟨x, mergeC (y :: rest), mergeC_cons_cons_neg x y rest hxy, rfl, rfl⟩
termination_by x l => l.length

theorem tlStart_mergeC [DecidableEq α] (x : Seg α) (l : List (Seg α)) :
    tlStart (mergeC (x :: l)) = x.start := by
  obtain ⟨h, t, heq, hs, _⟩ := mergeC_cons_exists x l
  rw [heq]
  exact hs

theorem tlEnd_singleton (s : Seg α) : tlEnd [s] = s.fin := by
  simp [tlEnd, List.getLast?_singleton]

theorem tlEnd_mergeC [DecidableEq α] : ∀ (l : List (Seg α)), tlEnd (mergeC l) = tlEnd l
  | [] => by rw [mergeC_nil]
  | [s] => by rw [mergeC_singleton]
  | x :: y :: rest => by
    by_cases hxy : x.value = y.value
    · rw [mergeC_cons_cons_pos x y rest hxy,
        tlEnd_mergeC (⟨x.start, y.fin, y.value⟩ :: rest)]
      cases rest with
      | nil => rw [tlEnd_singleton, tlEnd_cons_cons, tlEnd_singleton]
      | cons z rs => rw [tlEnd_cons_cons, tlEnd_cons_cons, tlEnd_cons_cons]
    · rw [mergeC_cons_cons_neg x y rest hxy]
      obtain ⟨h, t, heq, _, _⟩ := mergeC_cons_exists y rest
      rw [heq, tlEnd_cons_cons, ← heq, tlEnd_mergeC (y :: rest), tlEnd_cons_cons]
termination_by l => l.length

theorem wf_collapse {x y : Seg α} {rest : List (Seg α)} (h : WF (x :: y :: rest)) :
    WF (⟨x.start, y.fin, y.value⟩ :: rest) := by
  obtain ⟨h1, h2, h3⟩ := h
  simp only [List.map_cons, List.chain'_cons] at h1 h2
  refine ⟨?_, ?_, ?_⟩
  · simp only [List.map_cons]
    rw [List.chain'_cons']
    constructor
    · intro z hz
      have := (List.chain'_cons'.mp h1.2).1 z hz
      have := h1.1
      show x.start ≤ z
      omega
    · exact (List.chain'_cons'.mp h1.2).2
  · rw [List.chain'_cons']
    constructor
    · intro z hz
      have := (List.chain'_cons'.mp h2.2).1 z hz
      exact this
    · exact (List.chain'_cons'.mp h2.2).2
  · intro s hs
    rcases List.mem_cons.mp hs with rfl | hs'
    · have hx := h3 x (List.mem_cons_self _ _)
      have hy := h3 y (List.mem_cons_of_mem _ (List.mem_cons_self _ _))
      have := h2.1
      show x.start < y.fin
      omega
    · exact h3 s (List.mem_cons_of_mem _ (List.mem_cons_of_mem _ hs'))

theorem mergeC_wf [DecidableEq α] : ∀ {l : List (Seg α)}, WF l → WF (mergeC l)
  | [], _ => by rw [mergeC_nil]; exact ⟨List.chain'_nil, List.chain'_nil, by simp⟩
  | [s], h => by rw [mergeC_singleton]; exact h
  | x :: y :: rest, h => by
    by_cases hxy : x.value = y.value
    · rw [mergeC_cons_cons_pos x y rest hxy]
      exact mergeC_wf (wf_collapse h)
    · rw [mergeC_cons_cons_neg x y rest hxy]
      have hwf2 := mergeC_wf (l := y :: rest) h.tail
      obtain ⟨hd, t, heq, hs, _⟩ := mergeC_cons_exists y rest
      obtain ⟨h1, h2, h3⟩ := hwf2
      refine ⟨?_, ?_, ?_⟩
      · simp only [List.map_cons]
        rw [List.chain'_cons']
        constructor
        · intro z hz
          rw [heq] at hz
          simp only [List.map_cons, List.head?_cons, Option.mem_def,
            Option.some.injEq] at hz
          have hxs : x.start ≤ y.start := by
            have := h.1
            simp only [List.map_cons, List.chain'_cons] at this
            exact this.1
          subst hz
          show x.start ≤ hd.start
          omega
        · exact h1
      · rw [List.chain'_cons']
        constructor
        · intro z hz
          rw [heq] at hz
          simp only [List.head?_cons, Option.mem_def, Option.some.injEq] at hz
          have hfin : x.fin = y.start := by
            have := h.2.1
            rw [List.chain'_cons] at this
            exact this.1
          subst hz
          show x.fin = hd.start
          omega
        · exact h2
      · intro s hs
        rcases List.mem_cons.mp hs with rfl | hs'
        · exact h.2.2 s (List.mem_cons_self _ _)
        · exact h3 s hs'
termination_by l => l.length

end Timeline

namespace Timeline

variable {α β : Type}

theorem mergeC_chain_ne [DecidableEq α] : ∀ (l : List (Seg α)),
    (mergeC l).Chain' (fun a b => a.value ≠ b.value)
  | [] => by rw [mergeC_nil]; exact List.chain'_nil
  | [s] => by rw [mergeC_singleton]; exact List.chain'_singleton s
  | x :: y :: rest => by
    by_cases hxy : x.value = y.value
    · rw [mergeC_cons_cons_pos x y rest hxy]
      exact mergeC_chain_ne (⟨x.start, y.fin, y.value⟩ :: rest)
    · rw [mergeC_cons_cons_neg x y rest hxy]
      have htail := mergeC_chain_ne (y :: rest)
      obtain ⟨h, t, heq, _, hv⟩ := mergeC_cons_exists y rest
      rw [heq] at htail ⊢
      rw [List.chain'_cons]
      exact ⟨by rw [hv]; exact hxy, htail⟩
termination_by l => l.length

theorem mergeC_of_chain_ne [DecidableEq α] : ∀ (l : List (Seg α)),
    l.Chain' (fun a b => a.value ≠ b.value) → mergeC l = l
  | [], _ => mergeC_nil
  | [s], _ => mergeC_singleton s
  | x :: y :: rest, h => by
    have hxy : x.value ≠ y.value := (List.chain'_cons.mp h).1
    rw [mergeC_cons_cons_neg x y rest hxy,
      mergeC_of_chain_ne (y :: rest) (List.chain'_cons.mp h).2]
termination_by l => l.length

theorem runsSpec_nil [DecidableEq α] : runsSpec ([] : List (Seg α)) = [] := by
  simp [runsSpec]

theorem runsSpec_cons [DecidableEq α] (s : Seg α) (rest : List (Seg α)) :
    runsSpec (s :: rest) =
      ⟨s.start,
        ((s :: rest.takeWhile (fun x => decide (x.value = s.value))).getLast (by simp)).fin,
        s.value⟩ :: runsSpec (rest.dropWhile (fun x => decide (x.value = s.value))) := by
  rw [runsSpec]

theorem getLast_fin_eq (x y : Seg α) (l : List (Seg α)) (hfin : x.fin = y.fin) :
    ((x :: l).getLast (by simp)).fin = ((y :: l).getLast (by simp)).fin := by
  cases l with
  | nil => simpa [List.getLast_singleton]
  | cons z zs => rw [List.getLast_cons_cons, List.getLast_cons_cons]

theorem mergeC_eq_runsSpec [DecidableEq α] : ∀ (l : List (Seg α)), mergeC l = runsSpec l
  | [] => by rw [mergeC_nil, runsSpec_nil]
  | [s] => by
    rw [mergeC_singleton, runsSpec_cons]
    simp [runsSpec_nil, List.getLast_singleton]
  | x :: y :: rest => by
    by_cases hxy : x.value = y.value
    · rw [mergeC_cons_cons_pos x y rest hxy,
        mergeC_eq_runsSpec (⟨x.start, y.fin, y.value⟩ :: rest),
        runsSpec_cons, runsSpec_cons]
      have hpp : (fun z : Seg α => decide (z.value = y.value)) =
          (fun z : Seg α => decide (z.value = x.value)) := by
        funext z
        rw [hxy]
      have hyx : (decide (y.value = x.value)) = true := by
        rw [decide_eq_true_eq]
        exact hxy.symm
      simp only [hpp, List.takeWhile_cons, List.dropWhile_cons, hyx, if_true]
      rw [getLast_fin_eq ⟨x.start, y.fin, y.value⟩ y _ rfl, List.getLast_cons_cons, hxy]
    · rw [mergeC_cons_cons_neg x y rest hxy, mergeC_eq_runsSpec (y :: rest),
        runsSpec_cons x (y :: rest)]
      have hyx : (decide (y.value = x.value)) = false := by
        rw [decide_eq_false_iff_not]
        exact fun hc => hxy hc.symm
      simp only [List.takeWhile_cons, List.dropWhile_cons, hyx, if_false,
        Bool.false_eq_true, List.getLast_singleton]
termination_by l => l.length

end Timeline

namespace Timeline

variable {α β : Type}

theorem mergeC_ne_nil [DecidableEq α] (segs : List (Seg α)) (hne : segs ≠ []) :
    mergeC segs ≠ [] := by
  cases segs with
  | nil => exact absurd rfl hne
  | cons a l =>
    obtain ⟨h, t, heq, _, _⟩ := mergeC_cons_exists a l
    rw [heq]
    simp

/-- C6: for a valid timeline, `merge_adjacent` returns exactly the maximal-run
coalescing `runsSpec` of its segments, and the result passes the validating
constructor. -/
theorem merge_adjacent_spec [DecidableEq α] (segs : List (Seg α)) (hv : Valid segs) :
    merge_adjacent segs = .ok (runsSpec segs) := by
  obtain ⟨hne, hwf⟩ := valid_iff.mp hv
  have hvm : validate (mergeC segs) = .ok () :=
    valid_iff.mpr ⟨mergeC_ne_nil segs hne, mergeC_wf hwf⟩
  unfold merge_adjacent from_segments
  rw [mergeAdjacentList_eq_mergeC, hvm, mergeC_eq_runsSpec]

/-- Witness for C6 at a concrete three-segment timeline with one equal-valued
run. -/
theorem merge_adjacent_spec_witness :
    Valid [(⟨0, 60, 1⟩ : Seg Nat), ⟨60, 120, 1⟩, ⟨120, 180, 2⟩] ∧
      merge_adjacent [(⟨0, 60, 1⟩ : Seg Nat), ⟨60, 120, 1⟩, ⟨120, 180, 2⟩] =
        .ok (runsSpec [(⟨0, 60, 1⟩ : Seg Nat), ⟨60, 120, 1⟩, ⟨120, 180, 2⟩]) ∧
      runsSpec [(⟨0, 60, 1⟩ : Seg Nat), ⟨60, 120, 1⟩, ⟨120, 180, 2⟩] =
        [⟨0, 120, 1⟩, ⟨120, 180, 2⟩] :=
  ⟨rfl, merge_adjacent_spec _ rfl,
    by simp [runsSpec_cons, runsSpec_nil, List.takeWhile, List.dropWhile]⟩

/-- C7: `merge_adjacent` is idempotent: applying it to its own (valid) output
reproduces that output exactly. -/
theorem merge_adjacent_idempotent [DecidableEq α] (segs : List (Seg α)) (hv : Valid segs) :
    ∃ m, merge_adjacent segs = .ok m ∧ merge_adjacent m = .ok m := by
  obtain ⟨hne, hwf⟩ := valid_iff.mp hv
  have hvm : validate (mergeC segs) = .ok () :=
    valid_iff.mpr ⟨mergeC_ne_nil segs hne, mergeC_wf hwf⟩
  refine ⟨mergeC segs, ?_, ?_⟩
  · unfold merge_adjacent from_segments
    rw [mergeAdjacentList_eq_mergeC, hvm]
  · have hfix : mergeC (mergeC segs) = mergeC segs :=
      mergeC_of_chain_ne _ (mergeC_chain_ne segs)
    unfold merge_adjacent from_segments
    rw [mergeAdjacentList_eq_mergeC, hfix, hvm]

/-- Witness for C7 at a concrete timeline with two equal-valued segments. -/
theorem merge_adjacent_idempotent_witness :
    Valid [(⟨0, 60, 1⟩ : Seg Nat), ⟨60, 120, 1⟩] ∧
      ∃ m, merge_adjacent [(⟨0, 60, 1⟩ : Seg Nat), ⟨60, 120, 1⟩] = .ok m ∧
        merge_adjacent m = .ok m :=
  ⟨rfl, merge_adjacent_idempotent _ rfl⟩

end Timeline

namespace Timeline

variable {α β : Type}

theorem insertByStart_perm (x : Seg α) (l : List (Seg α)) :
    (insertByStart x l).Perm (x :: l) := by
  induction l with
  | nil => exact List.Perm.refl _
  | cons y ys ih =>
    unfold insertByStart
    split
    · exact (ih.cons y).trans (List.Perm.swap x y ys)
    · exact List.Perm.refl _

theorem sortByStart_perm (l : List (Seg α)) : (sortByStart l).Perm l := by
  induction l with
  | nil => exact List.Perm.refl _
  | cons x xs ih =>
    unfold sortByStart at *
    exact (insertByStart_perm x (xs.foldr insertByStart [])).trans (ih.cons x)

theorem insertByStart_sorted (x : Seg α) (l : List (Seg α))
    (h : (l.map Seg.start).Chain' (· ≤ ·)) :
    ((insertByStart x l).map Seg.start).Chain' (· ≤ ·) := by
  induction l with
  | nil => exact List.chain'_singleton _
  | cons y ys ih =>
    unfold insertByStart
    split
    · rename_i hyx
      simp only [List.map_cons] at h ⊢
      rw [List.chain'_cons'] at h ⊢
      refine ⟨?_, ih h.2⟩
      intro z hz
      cases ys with
      | nil =>
        simp only [insertByStart, List.map_cons, List.head?_cons, Option.mem_def,
          Option.some.injEq] at hz
        omega
      | cons u us =>
        unfold insertByStart at hz
        split at hz
        · simp only [List.map_cons, List.head?_cons, Option.mem_def,
            Option.some.injEq] at hz
          have := h.1 u.start (by simp)
          omega
        · simp only [List.map_cons, List.head?_cons, Option.mem_def,
            Option.some.injEq] at hz
          omega
    · rename_i hyx
      simp only [List.map_cons] at h ⊢
      rw [List.chain'_cons]
      exact ⟨by omega, h⟩

theorem sortByStart_sorted (l : List (Seg α)) :
    ((sortByStart l).map Seg.start).Chain' (· ≤ ·) := by
  induction l with
  | nil => exact List.chain'_nil
  | cons x xs ih => exact insertByStart_sorted x _ ih

theorem fillGaps_cons (g : α) (n : Seg α) (rest : List (Seg α)) :
    fillGaps g (n :: rest) = n :: fillAux g n rest := rfl

theorem fillAux_cons (g : α) (p n : Seg α) (rest : List (Seg α)) :
    fillAux g p (n :: rest) =
      (if p.fin < n.start then [⟨p.fin, n.start, g⟩] else []) ++ n :: fillAux g n rest := rfl

theorem fillGaps_of_no_gap (g : α) (l : List (Seg α))
    (h : l.Chain' (fun p n => ¬ p.fin < n.start)) :
    fillGaps g l = l := by
  cases l with
  | nil => rfl
  | cons p tail =>
    rw [fillGaps_cons]
    congr 1
    induction tail generalizing p with
    | nil => rfl
    | cons n rest ih =>
      rw [List.chain'_cons] at h
      rw [fillAux_cons, if_neg h.1, List.nil_append]
      congr 1
      exact ih n h.2

theorem contig_fillGaps_imp (g : α) (l : List (Seg α))
    (h : (fillGaps g l).Chain' (fun a b => a.fin = b.start)) :
    l.Chain' (fun p n => p.fin ≤ n.start) := by
  induction l with
  | nil => exact List.chain'_nil
  | cons p tail ih =>
    cases tail with
    | nil => exact List.chain'_singleton _
    | cons n rest =>
      rw [fillGaps_cons, fillAux_cons] at h
      rw [List.chain'_cons]
      by_cases hpn : p.fin < n.start
      · rw [if_pos hpn] at h
        simp only [List.cons_append, List.nil_append, List.chain'_cons] at h
        exact ⟨le_of_lt hpn, ih (by rw [fillGaps_cons]; exact h.2.2)⟩
      · rw [if_neg hpn, List.nil_append, List.chain'_cons] at h
        exact ⟨le_of_eq h.1, ih (by rw [fillGaps_cons]; exact h.2)⟩

theorem fillGaps_monotone (g : α) (l : List (Seg α))
    (hs : (l.map Seg.start).Chain' (· ≤ ·)) (hwf : ∀ s ∈ l, s.start ≤ s.fin) :
    ((fillGaps g l).map Seg.start).Chain' (· ≤ ·) := by
  induction l with
  | nil => exact List.chain'_nil
  | cons p tail ih =>
    cases tail with
    | nil => exact List.chain'_singleton _
    | cons n rest =>
      simp only [List.map_cons, List.chain'_cons] at hs
      have ihr := ih hs.2 (fun s hsm => hwf s (List.mem_cons_of_mem _ hsm))
      rw [fillGaps_cons] at ihr ⊢
      rw [fillAux_cons]
      by_cases hpn : p.fin < n.start
      · rw [if_pos hpn]
        simp only [List.cons_append, List.nil_append, List.map_cons,
          List.chain'_cons] at ihr ⊢
        refine ⟨?_, ?_, ihr⟩
        · exact hwf p (List.mem_cons_self _ _)
        · exact le_of_lt hpn
      · rw [if_neg hpn, List.nil_append]
        simp only [List.map_cons, List.chain'_cons] at ihr ⊢
        exact ⟨hs.1, ihr⟩

end Timeline

namespace Timeline

variable {α β : Type}

/-- C9: for non-empty input, `from_segments_with_gaps` stably sorts by start
(the result is a permutation with non-decreasing starts), inserts a
`(prev.end, next.start, gap_value)` segment exactly between sorted neighbours
with `prev.end < next.start` (inserting nothing when no such gap exists), and
delegates the filled list to `from_segments`; if the sorted input has an
overlapping adjacent pair, the result is the core validator's
"must be contiguous" failure. -/
theorem from_segments_with_gaps_spec (segs : List (Seg α)) (g : α) (hne : segs ≠ []) :
    from_segments_with_gaps segs g = from_segments (fillGaps g (sortByStart segs)) ∧
    (sortByStart segs).Perm segs ∧
    ((sortByStart segs).map Seg.start).Chain' (· ≤ ·) ∧
    ((sortByStart segs).Chain' (fun p n => ¬ p.fin < n.start) →
      fillGaps g (sortByStart segs) = sortByStart segs) ∧
    ((∀ s ∈ segs, s.start < s.fin) →
      ¬ (sortByStart segs).Chain' (fun p n => p.fin ≤ n.start) →
      from_segments_with_gaps segs g = .error "Segments must be contiguous") := by
  have hemp : segs.isEmpty = false := by
    cases segs with
    | nil => exact absurd rfl hne
    | cons a l => rfl
  have hdeleg : from_segments_with_gaps segs g =
      from_segments (fillGaps g (sortByStart segs)) := by
    unfold from_segments_with_gaps
    rw [hemp]
    rfl
  refine ⟨hdeleg, sortByStart_perm segs, sortByStart_sorted segs,
    fillGaps_of_no_gap g _, ?_⟩
  intro hwf hover
  rw [hdeleg]
  apply from_segments_error_contiguous_iff.mpr
  have hsne : sortByStart segs ≠ [] := by
    intro hnil
    have h0 : ([] : List (Seg α)).Perm segs := hnil ▸ sortByStart_perm segs
    exact hne h0.nil_eq.symm
  refine ⟨?_, ?_, ?_⟩
  · cases hfg : fillGaps g (sortByStart segs) with
    | nil =>
      cases hsg : sortByStart segs with
      | nil => exact absurd hsg hsne
      | cons a l => rw [hsg, fillGaps_cons] at hfg; cases hfg
    | cons a l => simp
  · apply monotonicStarts_iff.mpr
    apply fillGaps_monotone
    · exact sortByStart_sorted segs
    · intro s hsm
      exact le_of_lt (hwf s ((sortByStart_perm segs).mem_iff.mp hsm))
  · rw [Bool.eq_false_iff]
    intro hcon
    exact hover ((contig_fillGaps_imp g _ (contiguous_iff.mp hcon)))

/-- Witness for C9 at a concrete unsorted input with a gap, and at a concrete
overlapping input. -/
theorem from_segments_with_gaps_spec_witness :
    ([(⟨180, 300, 2⟩ : Seg Nat), ⟨0, 120, 1⟩] ≠ []) ∧
      from_segments_with_gaps [(⟨180, 300, 2⟩ : Seg Nat), ⟨0, 120, 1⟩] 99 =
        from_segments (fillGaps 99 (sortByStart [(⟨180, 300, 2⟩ : Seg Nat), ⟨0, 120, 1⟩])) ∧
      from_segments_with_gaps [(⟨180, 300, 2⟩ : Seg Nat), ⟨0, 120, 1⟩] 99 =
        .ok [⟨0, 120, 1⟩, ⟨120, 180, 99⟩, ⟨180, 300, 2⟩] ∧
      from_segments_with_gaps [(⟨0, 180, 1⟩ : Seg Nat), ⟨120, 300, 2⟩] 99 =
        .error "Segments must be contiguous" :=
  ⟨by decide,
    (from_segments_with_gaps_spec [(⟨180, 300, 2⟩ : Seg Nat), ⟨0, 120, 1⟩] 99
      (by decide)).1,
    rfl,
    (from_segments_with_gaps_spec [(⟨0, 180, 1⟩ : Seg Nat), ⟨120, 300, 2⟩] 99
      (by decide)).2.2.2.2 (by decide)
      (by
        intro hch
        have hch2 : List.Chain' (fun p n : Seg Nat => p.fin ≤ n.start)
            [(⟨0, 180, 1⟩ : Seg Nat), ⟨120, 300, 2⟩] := hch
        have h12 := (List.chain'_cons.mp hch2).1
        simp only [] at h12
        omega)⟩

end Timeline

namespace Timeline

variable {α β : Type}

theorem nextStartLE_lt {tl : List (Seg α)} {idx b : Nat}
    (h : nextStartLE tl idx b = true) : idx + 1 < tl.length := by
  unfold nextStartLE at h
  cases hg : tl[idx + 1]? with
  | none => rw [hg] at h; simp at h
  | some s => exact (List.getElem?_eq_some.mp hg).1

theorem advance_pos {tl : List (Seg α)} {idx b : Nat}
    (h : nextStartLE tl idx b = true) :
    advance tl idx b = advance tl (idx + 1) b := by
  rw [advance, dif_pos h]

theorem advance_neg {tl : List (Seg α)} {idx b : Nat}
    (h : nextStartLE tl idx b = false) :
    advance tl idx b = idx := by
  rw [advance, dif_neg (by rw [h]; exact Bool.false_ne_true)]

theorem le_advance (tl : List (Seg α)) (idx b : Nat) : idx ≤ advance tl idx b := by
  by_cases h : nextStartLE tl idx b = true
  · rw [advance_pos h]
    have := le_advance tl (idx + 1) b
    omega
  · rw [advance_neg (Bool.eq_false_iff.mpr h)]
termination_by tl.length - idx
decreasing_by
  have := nextStartLE_lt h
  omega

theorem advance_lt_length (tl : List (Seg α)) (idx b : Nat) (h : idx < tl.length) :
    advance tl idx b < tl.length := by
  by_cases hn : nextStartLE tl idx b = true
  · rw [advance_pos hn]
    exact advance_lt_length tl (idx + 1) b (nextStartLE_lt hn)
  · rw [advance_neg (Bool.eq_false_iff.mpr hn)]
    exact h
termination_by tl.length - idx
decreasing_by
  have := nextStartLE_lt hn
  omega

theorem advance_stopped (tl : List (Seg α)) (idx b : Nat) :
    nextStartLE tl (advance tl idx b) b = false := by
  by_cases hn : nextStartLE tl idx b = true
  · rw [advance_pos hn]
    exact advance_stopped tl (idx + 1) b
  · rw [advance_neg (Bool.eq_false_iff.mpr hn)]
    exact Bool.eq_false_iff.mpr hn
termination_by tl.length - idx
decreasing_by
  have := nextStartLE_lt hn
  omega

theorem advance_start_le (tl : List (Seg α)) (b : Nat) :
    ∀ (idx : Nat) (s : Seg α), tl[idx]? = some s → s.start ≤ b →
      ∃ u, tl[advance tl idx b]? = some u ∧ u.start ≤ b := by
  intro idx s hs hle
  by_cases hn : nextStartLE tl idx b = true
  · rw [advance_pos hn]
    unfold nextStartLE at hn
    cases hg : tl[idx + 1]? with
    | none => rw [hg] at hn; simp at hn
    | some u =>
      rw [hg] at hn
      exact advance_start_le tl b (idx + 1) u hg (of_decide_eq_true hn)
  · rw [advance_neg (Bool.eq_false_iff.mpr hn)]
    exact ⟨s, hs, hle⟩
termination_by idx => tl.length - idx
decreasing_by
  have := nextStartLE_lt hn
  omega

theorem advance_resume (tl : List (Seg α)) (b b' : Nat) (hbb : b ≤ b') :
    ∀ idx, advance tl (advance tl idx b) b' = advance tl idx b' := by
  intro idx
  by_cases hn : nextStartLE tl idx b = true
  · have hn' : nextStartLE tl idx b' = true := by
      unfold nextStartLE at hn ⊢
      cases hg : tl[idx + 1]? with
      | none => rw [hg] at hn; simp at hn
      | some u =>
        rw [hg] at hn
        have := of_decide_eq_true hn
        rw [decide_eq_true_eq]
        omega
    rw [advance_pos hn, advance_pos hn']
    exact advance_resume tl b b' hbb (idx + 1)
  · rw [advance_neg (Bool.eq_false_iff.mpr hn)]
termination_by idx => tl.length - idx
decreasing_by
  have := nextStartLE_lt hn
  omega

theorem WF.fin_eq_next_start {tl : List (Seg α)} (hwf : WF tl) {i : Nat} {s u : Seg α}
    (hs : tl[i]? = some s) (hu : tl[i + 1]? = some u) : s.fin = u.start := by
  obtain ⟨hi, hgs⟩ := List.getElem?_eq_some.mp hs
  obtain ⟨hi1, hgu⟩ := List.getElem?_eq_some.mp hu
  have := List.chain'_iff_get.mp hwf.2.1 i (by omega)
  simp only [List.get_eq_getElem] at this
  rw [hgs, hgu] at this
  exact this

theorem WF.start_le_of_le {tl : List (Seg α)} (hwf : WF tl) {i j : Nat} {s u : Seg α}
    (hij : i ≤ j) (hs : tl[i]? = some s) (hu : tl[j]? = some u) : s.start ≤ u.start := by
  obtain ⟨hi, hgs⟩ := List.getElem?_eq_some.mp hs
  obtain ⟨hj, hgu⟩ := List.getElem?_eq_some.mp hu
  rcases Nat.lt_or_ge i j with hlt | hge
  · have := List.pairwise_iff_get.mp hwf.pairwise_start_le ⟨i, by omega⟩ ⟨j, hj⟩ hlt
    simp only [List.get_eq_getElem] at this
    rw [hgs, hgu] at this
    exact this
  · have hij' : i = j := by omega
    subst hij'
    rw [hgs] at hgu
    rw [hgu]

theorem tlStart_getElem {tl : List (Seg α)} {s : Seg α} (h : tl[0]? = some s) :
    tlStart tl = s.start := by
  cases tl with
  | nil => cases h
  | cons a l =>
    simp only [List.getElem?_cons_zero, Option.some.injEq] at h
    rw [← h]
    rfl

theorem tlEnd_getElem {tl : List (Seg α)} {s : Seg α}
    (h : tl[tl.length - 1]? = some s) : tlEnd tl = s.fin := by
  unfold tlEnd
  rw [List.getLast?_eq_getElem? tl, h]

end Timeline

namespace Timeline

variable {α β : Type}

theorem advance_contains (tl : List (Seg α)) (b : Nat) (hwf : WF tl) (hne : tl ≠ [])
    (hlo : tlStart tl ≤ b) (hhi : b < tlEnd tl) :
    ∃ s, tl[advance tl 0 b]? = some s ∧ s.start ≤ b ∧ b < s.fin := by
  have hlen : 0 < tl.length := List.length_pos.mpr hne
  have hh0 : tl[0]? = some (tl.get ⟨0, hlen⟩) := List.getElem?_eq_getElem hlen
  have hstart0 : (tl.get ⟨0, hlen⟩).start ≤ b := by
    rw [← tlStart_getElem hh0]
    exact hlo
  obtain ⟨u, hu, hub⟩ := advance_start_le tl b 0 (tl.get ⟨0, hlen⟩) hh0 hstart0
  refine ⟨u, hu, hub, ?_⟩
  have hstop := advance_stopped tl 0 b
  unfold nextStartLE at hstop
  cases hg : tl[advance tl 0 b + 1]? with
  | some w =>
    rw [hg] at hstop
    replace hstop : decide (w.start ≤ b) = false := hstop
    rw [decide_eq_false_iff_not] at hstop
    have := hwf.fin_eq_next_start hu hg
    omega
  | none =>
    have hr : advance tl 0 b < tl.length := advance_lt_length tl 0 b hlen
    have hge : tl.length ≤ advance tl 0 b + 1 := by
      by_contra hc
      have hlt : advance tl 0 b + 1 < tl.length := by omega
      rw [List.getElem?_eq_getElem hlt] at hg
      cases hg
    have hreq : advance tl 0 b = tl.length - 1 := by omega
    have : tlEnd tl = u.fin := tlEnd_getElem (by rw [← hreq]; exact hu)
    omega

theorem find?_eq_of_first {p : Seg α → Bool} :
    ∀ (l : List (Seg α)) (r : Nat) (s : Seg α), l[r]? = some s → p s = true →
      (∀ m u, m < r → l[m]? = some u → p u = false) → l.find? p = some s := by
  intro l
  induction l with
  | nil => intro r s hr; cases hr
  | cons a t ih =>
    intro r s hr hp hbefore
    cases r with
    | zero =>
      simp only [List.getElem?_cons_zero, Option.some.injEq] at hr
      subst hr
      rw [List.find?_cons_of_pos _ hp]
    | succ r' =>
      have hpa : p a = false := hbefore 0 a (by omega) (by simp)
      rw [List.find?_cons_of_neg _ (by rw [hpa]; exact Bool.false_ne_true)]
      exact ih r' s (by simpa using hr) hp
        (fun m u hm hmu => hbefore (m + 1) u (by omega) (by simpa using hmu))

theorem valueAt_eq [Inhabited α] {tl : List (Seg α)} {b : Nat} (hwf : WF tl)
    {r : Nat} {s : Seg α}
    (hr : tl[r]? = some s) (h1 : s.start ≤ b) (h2 : b < s.fin) :
    valueAt tl b = s.value := by
  have hbef : ∀ m u, m < r → tl[m]? = some u →
      (decide (u.start ≤ b) && decide (b < u.fin)) = false := by
    intro m u hm hmu
    have hfin : u.fin ≤ s.start := by
      have hrlen := (List.getElem?_eq_some.mp hr).1
      have hm1 : m + 1 < tl.length := by omega
      have hw : tl[m + 1]? = some tl[m + 1] := List.getElem?_eq_getElem hm1
      have he := hwf.fin_eq_next_start hmu hw
      have hle := hwf.start_le_of_le (by omega : m + 1 ≤ r) hw hr
      omega
    simp only [Bool.and_eq_true, decide_eq_true_eq, Bool.eq_false_iff, ne_eq, not_and]
    intro _ hcon
    omega
  unfold valueAt
  rw [find?_eq_of_first tl r s hr (by simp [h1, h2]) hbef]

theorem valueAtIdx_eq [Inhabited α] {tl : List (Seg α)} {r : Nat} {s : Seg α}
    (hr : tl[r]? = some s) : valueAtIdx tl r = s.value := by
  unfold valueAtIdx
  rw [hr]

theorem advance_value [Inhabited α] (tl : List (Seg α)) (b : Nat) (hwf : WF tl)
    (hne : tl ≠ []) (hlo : tlStart tl ≤ b) (hhi : b < tlEnd tl) :
    valueAtIdx tl (advance tl 0 b) = valueAt tl b := by
  obtain ⟨s, hs, h1, h2⟩ := advance_contains tl b hwf hne hlo hhi
  rw [valueAtIdx_eq hs, valueAt_eq hwf hs h1 h2]

theorem advance_zero (tl : List (Seg α)) (hwf : WF tl) :
    advance tl 0 (tlStart tl) = 0 := by
  apply advance_neg
  unfold nextStartLE
  cases h1 : tl[0 + 1]? with
  | none => rfl
  | some u =>
    have hlen : 0 < tl.length := by
      have := (List.getElem?_eq_some.mp h1).1
      omega
    have hh0 : tl[0]? = some (tl.get ⟨0, hlen⟩) := List.getElem?_eq_getElem hlen
    have hfin := hwf.fin_eq_next_start hh0 h1
    have hwf0 : (tl.get ⟨0, hlen⟩).start < (tl.get ⟨0, hlen⟩).fin := by
      apply hwf.2.2
      exact List.getElem?_mem hh0
    rw [decide_eq_false_iff_not, tlStart_getElem hh0]
    omega

end Timeline

namespace Timeline

variable {α β : Type}

theorem mem_insertSorted (x : Nat) (l : List Nat) (z : Nat) :
    z ∈ insertSorted x l ↔ z = x ∨ z ∈ l := by
  induction l with
  | nil => simp [insertSorted]
  | cons y ys ih =>
    unfold insertSorted
    split
    · simp
    · split
      · rename_i hlt heq
        subst heq
        simp only [List.mem_cons]
        constructor
        · intro h; right; exact h
        · intro h
          rcases h with rfl | h
          · left; rfl
          · exact h
      · simp only [List.mem_cons, ih]
        tauto

theorem mem_sortedDedup (l : List Nat) (z : Nat) :
    z ∈ sortedDedup l ↔ z ∈ l := by
  induction l with
  | nil => simp [sortedDedup]
  | cons x xs ih =>
    unfold sortedDedup at *
    rw [List.foldr_cons, mem_insertSorted, ih, List.mem_cons]

theorem sorted_insertSorted (x : Nat) (l : List Nat) (h : l.Chain' (· < ·)) :
    (insertSorted x l).Chain' (· < ·) := by
  induction l with
  | nil => exact List.chain'_singleton x
  | cons y ys ih =>
    unfold insertSorted
    split
    · rename_i hlt
      exact List.chain'_cons.mpr ⟨hlt, h⟩
    · split
      · exact h
      · rename_i h1 h2
        rw [List.chain'_cons'] at h ⊢
        refine ⟨?_, ih h.2⟩
        intro z hz
        cases ys with
        | nil =>
          simp only [insertSorted, List.head?_cons, Option.mem_def,
            Option.some.injEq] at hz
          omega
        | cons u us =>
          unfold insertSorted at hz
          split at hz
          · simp only [List.head?_cons, Option.mem_def, Option.some.injEq] at hz
            omega
          · split at hz
            · simp only [List.head?_cons, Option.mem_def, Option.some.injEq] at hz
              have := h.1 u (by simp)
              omega
            · simp only [List.head?_cons, Option.mem_def, Option.some.injEq] at hz
              have := h.1 u (by simp)
              omega

theorem sorted_sortedDedup (l : List Nat) : (sortedDedup l).Chain' (· < ·) := by
  induction l with
  | nil => exact List.chain'_nil
  | cons x xs ih => exact sorted_insertSorted x _ ih

theorem head?_of_min {l : List Nat} {x : Nat} (hch : l.Chain' (· < ·))
    (hmem : x ∈ l) (hmin : ∀ y ∈ l, x ≤ y) : l.head? = some x := by
  cases l with
  | nil => cases hmem
  | cons a t =>
    rcases List.mem_cons.mp hmem with rfl | hmem'
    · rfl
    · have h1 : a < x := by
        have hpw := List.chain'_iff_pairwise.mp hch
        exact List.rel_of_pairwise_cons hpw hmem'
      have h2 : x ≤ a := hmin a (List.mem_cons_self _ _)
      omega

end Timeline

namespace Timeline

variable {α β : Type}

theorem allBoundaries_bound {tls : List (List (Seg α))} {S E : Nat}
    (hv : ∀ tl ∈ tls, WF tl) (hS : ∀ tl ∈ tls, tlStart tl = S)
    (hE : ∀ tl ∈ tls, tlEnd tl = E)
    {b : Nat} (hb : b ∈ allBoundaries tls) : S ≤ b ∧ b ≤ E := by
  unfold allBoundaries at hb
  rw [mem_sortedDedup] at hb
  obtain ⟨tl, htl, hmem⟩ := List.mem_flatMap.mp hb
  rcases List.mem_append.mp hmem with hmm | hmm
  · obtain ⟨s, hs, rfl⟩ := List.mem_map.mp hmm
    have h1 := (hv tl htl).start_le s hs
    have h2 := (hv tl htl).2.2 s hs
    have h3 := (hv tl htl).fin_le s hs
    rw [hS tl htl] at h1
    rw [hE tl htl] at h3
    exact ⟨h1, by omega⟩
  · obtain ⟨s, hs, rfl⟩ := List.mem_map.mp hmm
    have h1 := (hv tl htl).start_le s hs
    have h2 := (hv tl htl).2.2 s hs
    have h3 := (hv tl htl).fin_le s hs
    rw [hS tl htl] at h1
    rw [hE tl htl] at h3
    exact ⟨by omega, h3⟩

theorem start_mem_allBoundaries {tls : List (List (Seg α))} {tl : List (Seg α)}
    (htl : tl ∈ tls) (hne : tl ≠ []) : tlStart tl ∈ allBoundaries tls := by
  unfold allBoundaries
  rw [mem_sortedDedup]
  apply List.mem_flatMap.mpr
  refine ⟨tl, htl, ?_⟩
  apply List.mem_append.mpr
  left
  cases tl with
  | nil => exact absurd rfl hne
  | cons a l => exact List.mem_map.mpr ⟨a, List.mem_cons_self _ _, rfl⟩

theorem end_mem_allBoundaries {tls : List (List (Seg α))} {tl : List (Seg α)}
    (htl : tl ∈ tls) (hne : tl ≠ []) : tlEnd tl ∈ allBoundaries tls := by
  unfold allBoundaries
  rw [mem_sortedDedup]
  apply List.mem_flatMap.mpr
  refine ⟨tl, htl, ?_⟩
  apply List.mem_append.mpr
  right
  obtain ⟨g, hg⟩ : ∃ g, tl.getLast? = some g := by
    cases tl with
    | nil => exact absurd rfl hne
    | cons a l => exact ⟨(a :: l).getLast (by simp), List.getLast?_eq_getLast _ _⟩
  have : tlEnd tl = g.fin := by simp [tlEnd, hg]
  rw [this]
  exact List.mem_map.mpr ⟨g, List.mem_of_mem_getLast? hg, rfl⟩

theorem boundaryPairs_nil : boundaryPairs ([] : List Nat) = [] := rfl

theorem boundaryPairs_single (a : Nat) : boundaryPairs [a] = [] := rfl

theorem boundaryPairs_cons_cons (a b : Nat) (rest : List Nat) :
    boundaryPairs (a :: b :: rest) = (a, b) :: boundaryPairs (b :: rest) := rfl

theorem chain_le_of_le {b c : Nat} {l : List Nat} (hbc : b ≤ c)
    (h : List.Chain (· ≤ ·) c l) : List.Chain (· ≤ ·) b l := by
  cases l with
  | nil => exact List.Chain.nil
  | cons x xs =>
    rw [List.chain_cons] at h ⊢
    exact ⟨le_trans hbc h.1, h.2⟩

theorem boundaryPairs_fst_chain : ∀ (bs : List Nat) (c : Nat), bs.Chain' (· < ·) →
    bs.head? = some c → List.Chain (· ≤ ·) c ((boundaryPairs bs).map Prod.fst)
  | [], c, _, hh => by cases hh
  | [a], c, _, hh => by
    rw [boundaryPairs_single]
    exact List.Chain.nil
  | a :: b :: rest, c, hch, hh => by
    have hc : a = c := by simpa using hh
    subst hc
    rw [boundaryPairs_cons_cons, List.map_cons, List.chain_cons]
    rw [List.chain'_cons] at hch
    refine ⟨le_refl a, ?_⟩
    exact chain_le_of_le (le_of_lt hch.1)
      (boundaryPairs_fst_chain (b :: rest) b hch.2 rfl)

theorem boundaryPairs_mem : ∀ {bs : List Nat}, bs.Chain' (· < ·) →
    ∀ p ∈ boundaryPairs bs, p.1 < p.2 ∧ p.2 ∈ bs
  | [], _, p, hp => by cases hp
  | [a], _, p, hp => by rw [boundaryPairs_single] at hp; cases hp
  | a :: b :: rest, hch, p, hp => by
    rw [boundaryPairs_cons_cons] at hp
    rw [List.chain'_cons] at hch
    rcases List.mem_cons.mp hp with rfl | hp'
    · exact ⟨hch.1, List.mem_cons_of_mem _ (List.mem_cons_self _ _)⟩
    · obtain ⟨h1, h2⟩ := boundaryPairs_mem hch.2 p hp'
      exact ⟨h1, List.mem_cons_of_mem _ h2⟩

theorem crossOut_wf {γ : Type} : ∀ (bs : List Nat), bs.Chain' (· < ·) →
    ∀ (f : Nat × Nat → γ),
      WF ((boundaryPairs bs).map (fun p => (⟨p.1, p.2, f p⟩ : Seg γ)))
  | [], _, f => by
    rw [boundaryPairs_nil]
    exact ⟨List.chain'_nil, List.chain'_nil, by simp⟩
  | [a], _, f => by
    rw [boundaryPairs_single]
    exact ⟨List.chain'_nil, List.chain'_nil, by simp⟩
  | a :: b :: rest, h, f => by
    rw [List.chain'_cons] at h
    have ih := crossOut_wf (b :: rest) h.2 f
    rw [boundaryPairs_cons_cons, List.map_cons]
    obtain ⟨ih1, ih2, ih3⟩ := ih
    refine ⟨?_, ?_, ?_⟩
    · simp only [List.map_cons]
      rw [List.chain'_cons']
      refine ⟨?_, ih1⟩
      intro z hz
      cases rest with
      | nil => cases hz
      | cons c rs =>
        rw [boundaryPairs_cons_cons, List.map_cons, List.map_cons] at hz
        simp only [List.head?_cons, Option.mem_def, Option.some.injEq] at hz
        subst hz
        show a ≤ b
        omega
    · rw [List.chain'_cons']
      refine ⟨?_, ih2⟩
      intro z hz
      cases rest with
      | nil => cases hz
      | cons c rs =>
        rw [boundaryPairs_cons_cons, List.map_cons] at hz
        simp only [List.head?_cons, Option.mem_def, Option.some.injEq] at hz
        subst hz
        rfl
    · intro s hs
      rcases List.mem_cons.mp hs with rfl | hs'
      · exact h.1
      · exact ih3 s hs'

theorem two_mem_shape {bs : List Nat} {S E : Nat} (hh : bs.head? = some S)
    (hE : E ∈ bs) (hSE : S < E) : ∃ b rest, bs = S :: b :: rest := by
  cases bs with
  | nil => cases hh
  | cons a t =>
    have ha : a = S := by simpa using hh
    subst ha
    cases t with
    | nil =>
      rcases List.mem_cons.mp hE with rfl | hE'
      · omega
      · cases hE'
    | cons b rest => exact ⟨b, rest, rfl⟩

end Timeline

namespace Timeline

variable {α β : Type}

theorem zip_self_map {γ : Type} (l : List (List (Seg α))) (g : List (Seg α) → γ) :
    l.zip (l.map g) = l.map (fun tl => (tl, g tl)) := by
  have := List.zip_map' id g l
  simpa using this

theorem sweepAux_eq [Inhabited α] (tls : List (List (Seg α))) (S E : Nat)
    (hv : ∀ tl ∈ tls, WF tl ∧ tl ≠ []) (hS : ∀ tl ∈ tls, tlStart tl = S)
    (hE : ∀ tl ∈ tls, tlEnd tl = E) :
    ∀ (bps : List (Nat × Nat)) (c : Nat), S ≤ c →
      List.Chain (· ≤ ·) c (bps.map Prod.fst) → (∀ p ∈ bps, p.1 < E) →
      sweepAux tls (tls.map (fun tl => advance tl 0 c)) bps =
        bps.map (fun p => ⟨p.1, p.2, tls.map (fun tl => valueAt tl p.1)⟩) := by
  intro bps
  induction bps with
  | nil => intro c _ _ _; rfl
  | cons p bps ih =>
    intro c hSc hchain hmem
    rw [List.map_cons, List.chain_cons] at hchain
    have hadv : ((fun q : List (Seg α) × Nat => advance q.1 q.2 p.1) ∘
        fun tl => (tl, advance tl 0 c)) = fun tl => advance tl 0 p.1 := by
      funext tl
      exact advance_resume tl c p.1 hchain.1 0
    unfold sweepAux
    simp only [zip_self_map, List.map_map, hadv]
    have hVal : tls.map ((fun q : List (Seg α) × Nat => valueAtIdx q.1 q.2) ∘
        fun tl => (tl, advance tl 0 p.1)) = tls.map (fun tl => valueAt tl p.1) := by
      apply List.map_congr_left
      intro tl htl
      show valueAtIdx tl (advance tl 0 p.1) = valueAt tl p.1
      apply advance_value tl p.1 (hv tl htl).1 (hv tl htl).2
      · rw [hS tl htl]; omega
      · rw [hE tl htl]; exact hmem p (List.mem_cons_self _ _)
    rw [hVal, List.map_cons]
    congr 1
    exact ih p.1 (by omega) hchain.2 (fun q hq => hmem q (List.mem_cons_of_mem _ hq))

/-- C1: for N ≥ 1 valid timelines sharing the same total start and end,
`cross_product` succeeds and returns exactly one unmerged segment per
consecutive pair of the deduplicated ascending boundary union, valued by the
tuple (in input order) of the values each timeline holds at the pair's left
endpoint — the `crossSpec` description. -/
theorem cross_product_sweep [Inhabited α] (tls : List (List (Seg α))) (S E : Nat)
    (hne : tls ≠ []) (hv : ∀ tl ∈ tls, Valid tl)
    (hS : ∀ tl ∈ tls, tlStart tl = S) (hE : ∀ tl ∈ tls, tlEnd tl = E) :
    cross_product tls = .ok (crossSpec tls) := by
  have hv' : ∀ tl ∈ tls, WF tl ∧ tl ≠ [] := by
    intro tl htl
    obtain ⟨h1, h2⟩ := valid_iff.mp (hv tl htl)
    exact ⟨h2, h1⟩
  obtain ⟨tl0, tls', rfl⟩ : ∃ tl0 tls', tls = tl0 :: tls' := by
    cases tls with
    | nil => exact absurd rfl hne
    | cons a l => exact ⟨a, l, rfl⟩
  have htl0 : tl0 ∈ tl0 :: tls' := List.mem_cons_self _ _
  have hSE : S < E := by
    have := ((hv' tl0 htl0).1).tlStart_lt_tlEnd (hv' tl0 htl0).2
    rw [hS tl0 htl0, hE tl0 htl0] at this
    exact this
  have hassert1 : ((tl0 :: tls').all
      (fun tl => tlStart tl = tlStart ((tl0 :: tls').headD []))) = true := by
    rw [List.all_eq_true]
    intro tl htl
    rw [decide_eq_true_eq]
    show tlStart tl = tlStart tl0
    rw [hS tl htl, hS tl0 htl0]
  have hassert2 : ((tl0 :: tls').all
      (fun tl => tlEnd tl = tlEnd ((tl0 :: tls').headD []))) = true := by
    rw [List.all_eq_true]
    intro tl htl
    rw [decide_eq_true_eq]
    show tlEnd tl = tlEnd tl0
    rw [hE tl htl, hE tl0 htl0]
  have hbound : ∀ b ∈ allBoundaries (tl0 :: tls'), S ≤ b ∧ b ≤ E :=
    fun b hb => allBoundaries_bound (fun tl htl => (hv' tl htl).1) hS hE hb
  have hSmem : S ∈ allBoundaries (tl0 :: tls') := by
    have := start_mem_allBoundaries htl0 (hv' tl0 htl0).2
    rwa [hS tl0 htl0] at this
  have hEmem : E ∈ allBoundaries (tl0 :: tls') := by
    have := end_mem_allBoundaries htl0 (hv' tl0 htl0).2
    rwa [hE tl0 htl0] at this
  have hsorted := sorted_sortedDedup
    ((tl0 :: tls').flatMap (fun tl => tl.map Seg.start ++ tl.map Seg.fin))
  have hsorted' : (allBoundaries (tl0 :: tls')).Chain' (· < ·) := hsorted
  have hhead : (allBoundaries (tl0 :: tls')).head? = some S :=
    head?_of_min hsorted' hSmem (fun y hy => (hbound y hy).1)
  obtain ⟨b1, brest, hshape⟩ := two_mem_shape hhead hEmem hSE
  -- the sweep output equals the spec output
  have hzero : ((tl0 :: tls').map (fun tl => advance tl 0 S)) =
      List.replicate (tl0 :: tls').length 0 := by
    rw [← List.map_const (tl0 :: tls') 0]
    apply List.map_congr_left
    intro tl htl
    rw [← hS tl htl]
    exact advance_zero tl (hv' tl htl).1
  have hsweep : sweepAux (tl0 :: tls') (List.replicate (tl0 :: tls').length 0)
      (boundaryPairs (allBoundaries (tl0 :: tls'))) = crossSpec (tl0 :: tls') := by
    rw [← hzero]
    unfold crossSpec
    apply sweepAux_eq (tl0 :: tls') S E hv' hS hE _ S (le_refl S)
    · exact boundaryPairs_fst_chain _ S hsorted' hhead
    · intro p hp
      obtain ⟨h1, h2⟩ := boundaryPairs_mem hsorted' p hp
      have := (hbound p.2 h2).2
      omega
  have hvalid : validate (crossSpec (tl0 :: tls')) = .ok () := by
    apply valid_iff.mpr
    constructor
    · unfold crossSpec
      rw [hshape, boundaryPairs_cons_cons, List.map_cons]
      simp
    · unfold crossSpec
      exact crossOut_wf _ hsorted' _
  unfold cross_product
  rw [hassert1, hassert2]
  simp only [Bool.true_eq_false, if_false]
  rw [hsweep]
  unfold from_segments
  rw [hvalid]

end Timeline

namespace Timeline

/-- Witness for C1 at the two concrete timelines of the repository's test
suite, whose cross product has four boundary segments. -/
theorem cross_product_sweep_witness :
    cross_product [[(⟨0, 300, 1⟩ : Seg Nat), ⟨300, 600, 2⟩],
        [⟨0, 180, 3⟩, ⟨180, 420, 4⟩, ⟨420, 600, 5⟩]] =
      .ok (crossSpec [[(⟨0, 300, 1⟩ : Seg Nat), ⟨300, 600, 2⟩],
        [⟨0, 180, 3⟩, ⟨180, 420, 4⟩, ⟨420, 600, 5⟩]]) ∧
    crossSpec [[(⟨0, 300, 1⟩ : Seg Nat), ⟨300, 600, 2⟩],
        [⟨0, 180, 3⟩, ⟨180, 420, 4⟩, ⟨420, 600, 5⟩]] =
      [⟨0, 180, [1, 3]⟩, ⟨180, 300, [1, 4]⟩, ⟨300, 420, [2, 4]⟩, ⟨420, 600, [2, 5]⟩] :=
  ⟨cross_product_sweep _ 0 600 (by simp)
      (by
        intro tl htl
        rcases List.mem_cons.mp htl with rfl | htl2
        · rfl
        · rcases List.mem_cons.mp htl2 with rfl | h3
          · rfl
          · cases h3)
      (by
        intro tl htl
        rcases List.mem_cons.mp htl with rfl | htl2
        · rfl
        · rcases List.mem_cons.mp htl2 with rfl | h3
          · rfl
          · cases h3)
      (by
        intro tl htl
        rcases List.mem_cons.mp htl with rfl | htl2
        · rfl
        · rcases List.mem_cons.mp htl2 with rfl | h3
          · rfl
          · cases h3),
    rfl⟩

end Timeline
